import Mathlib

/-!
Verification of the admission/scheduling/dispatch core of an EVM arbitrage bot.

The development shallowly embeds the Rust sources:
* `src/strategy/arb_cache.rs` — the de-duplicating, expiring, priority-ordered
  candidate cache (`ArbCache`);
* `src/strategy/mod.rs` — the dispatcher's `process_event` drain loop and the
  recent-dispatch window;
* `src/dex/mod.rs` — the bounded multi-hop route search (`find_sell_paths`,
  `dfs`) and best-route selection (`find_best_path_exact_in`);
* `src/strategy/worker.rs` — the worker's dry-run gate (`handle_arb_item`,
  `dry_run_tx_request`, `update_gas_estimates`).

Machine integers (`u64`, `U256`, `Instant`) are modelled as `Nat` (no
overflow-relevant arithmetic occurs in the embedded code paths); `H256` hashes,
addresses and the opaque `SimulateCtx` payload are modelled as `Nat` tokens.
`Instant::now()` is modelled by passing the current time explicitly to each
operation.
-/

namespace ArbBot

/-- `Source` from `src/types.rs`: provenance of a candidate. -/
inductive Source where
  | public : Source
  | mempool : Source
  | mevRelay (opp_tx_hash : Nat) (bid_amount : Nat) (start : Nat) (deadline : Nat)
      (arb_found : Nat) : Source
deriving DecidableEq, Repr

/-- `ArbEntry` from `src/strategy/arb_cache.rs`: the value stored in the map for
each token. -/
structure ArbEntry where
  hash : Nat
  sim_ctx : Nat
  generation : Nat
  expires_at : Nat
  source : Source
deriving DecidableEq, Repr

/-- `HeapItem` from `src/strategy/arb_cache.rs`: an immutable record pushed into
the priority queue. -/
structure HeapItem where
  expires_at : Nat
  generation : Nat
  token : String
  pool_address : Option Nat
deriving DecidableEq, Repr

/-- `ArbItem` from `src/strategy/arb_cache.rs`: the candidate handed to workers.
`ArbItem::new(token, pool_address, entry)` copies `hash`, `sim_ctx`, `source`
from the entry. -/
structure ArbItem where
  token : String
  pool_address : Option Nat
  tx_hash : Nat
  sim_ctx : Nat
  source : Source
deriving DecidableEq, Repr

/-- The `impl Ord for HeapItem` comparison (before the final `.reverse()` that
merely converts Rust's max-heap into a min-heap): records are ordered by
`(expires_at, generation)` lexicographically ascending, so the heap pops the
record with the smallest `(expires_at, generation)` first. -/
def hlt (a b : HeapItem) : Bool :=
  a.expires_at < b.expires_at ||
    (a.expires_at == b.expires_at && a.generation < b.generation)

/-- `BinaryHeap<HeapItem>` is modelled as a list kept sorted in pop order
(ascending `(expires_at, generation)`).  Since the cache hands every record a
globally unique generation, the pop order of the Rust binary heap is total and
this model is extensionally exact.  `push` inserts at the sorted position. -/
def heapPush (r : HeapItem) : List HeapItem → List HeapItem
  | [] => [r]
  | x :: xs => if hlt r x then r :: x :: xs else x :: heapPush r xs

/-- `HashMap<String, ArbEntry>` is modelled as a function to `Option`. -/
def Emap := String → Option ArbEntry

/-- `HashMap::insert`. -/
def mapInsert (t : String) (e : ArbEntry) (m : Emap) : Emap :=
  fun s => if s = t then some e else m s

/-- `HashMap::remove`. -/
def mapErase (t : String) (m : Emap) : Emap :=
  fun s => if s = t then none else m s

/-- `ArbCache` from `src/strategy/arb_cache.rs`. -/
structure ArbCache where
  map : Emap
  heap : List HeapItem
  generation_counter : Nat
  expiration_duration : Nat

/-- `ArbCache::new(expiration_duration)`. -/
def ArbCache.new (expiration_duration : Nat) : ArbCache :=
  { map := fun _ => none
    heap := []
    generation_counter := 0
    expiration_duration := expiration_duration }

/-- `ArbCache::insert`: bump the generation counter, upsert the map entry with
`expires_at = now + expiration_duration`, push a heap record. -/
def ArbCache.insert (c : ArbCache) (now : Nat) (token : String)
    (pool_address : Option Nat) (hash : Nat) (sim_ctx : Nat) (source : Source) :
    ArbCache :=
  let generation := c.generation_counter + 1
  let expires_at := now + c.expiration_duration
  { map := mapInsert token
      { hash := hash, sim_ctx := sim_ctx, generation := generation
        expires_at := expires_at, source := source } c.map
    heap := heapPush
      { expires_at := expires_at, generation := generation, token := token
        pool_address := pool_address } c.heap
    generation_counter := generation
    expiration_duration := c.expiration_duration }

/-- The loop body of `ArbCache::pop_one`, recursing over the heap in pop order.
For each popped record: no map entry → stale, skip; generation mismatch →
superseded, skip without touching the map; matching generation and
`expires_at > now` → remove the entry from the map and return the candidate;
matching generation but expired → remove the entry from the map and continue. -/
def popOneAux (now : Nat) : Emap → List HeapItem →
    Option ArbItem × Emap × List HeapItem
  | m, [] => (none, m, [])
  | m, top :: rest =>
    match m top.token with
    | some entry =>
      if entry.generation = top.generation then
        if now < entry.expires_at then
          (some { token := top.token, pool_address := top.pool_address
                  tx_hash := entry.hash, sim_ctx := entry.sim_ctx
                  source := entry.source },
           mapErase top.token m, rest)
        else
          popOneAux now (mapErase top.token m) rest
      else
        popOneAux now m rest
    | none => popOneAux now m rest

/-- `ArbCache::pop_one`. -/
def ArbCache.popOne (c : ArbCache) (now : Nat) : Option ArbItem × ArbCache :=
  let r := popOneAux now c.map c.heap
  (r.1, { c with map := r.2.1, heap := r.2.2 })

/-- The loop body of `ArbCache::remove_expired`, peeking at the heap front.
Stale record (generation mismatch or entry missing) → discard and continue;
live record not yet expired → stop, leaving the record in the heap; live
expired record → remove from the map, report the token, continue. -/
def removeExpiredAux (now : Nat) : Emap → List HeapItem →
    List String × Emap × List HeapItem
  | m, [] => ([], m, [])
  | m, top :: rest =>
    match m top.token with
    | some entry =>
      if entry.generation ≠ top.generation then
        removeExpiredAux now m rest
      else if entry.expires_at ≤ now then
        let r := removeExpiredAux now (mapErase top.token m) rest
        (top.token :: r.1, r.2)
      else
        ([], m, top :: rest)
    | none => removeExpiredAux now m rest

/-- `ArbCache::remove_expired`. -/
def ArbCache.removeExpired (c : ArbCache) (now : Nat) :
    List String × ArbCache :=
  let r := removeExpiredAux now c.map c.heap
  (r.1, { c with map := r.2.1, heap := r.2.2 })

/-- One operation applied to an `ArbCache` by its single-threaded owner, with
the wall-clock time at which it runs. -/
inductive Op where
  | ins (now : Nat) (token : String) (pool : Option Nat) (hash : Nat)
      (ctx : Nat) (src : Source) : Op
  | pop (now : Nat) : Op
  | sweep (now : Nat) : Op

/-- Run a sequence of cache operations, logging for every successful
`pop_one` the time of the pop, the returned item, and the map entry that the
pre-pop cache held for the returned token (the entry the candidate was built
from). -/
def runCache : ArbCache → List Op → ArbCache × List (Nat × ArbItem × Option ArbEntry)
  | c, [] => (c, [])
  | c, Op.ins now t p h x s :: rest => runCache (c.insert now t p h x s) rest
  | c, Op.pop now :: rest =>
    match c.popOne now with
    | (none, c₂) => runCache c₂ rest
    | (some item, c₂) =>
      let r := runCache c₂ rest
      (r.1, (now, item, c.map item.token) :: r.2)
  | c, Op.sweep now :: rest => runCache (c.removeExpired now).2 rest

/-! ### Well-formedness of the cache

The cache is owned by a single thread; every reachable state satisfies the
following coupling invariant between the map, the heap and the generation
counter. -/

/-- The heap is in pop order. -/
def heapSorted (h : List HeapItem) : Prop :=
  List.Pairwise (fun a b => hlt a b = true) h

/-- Well-formedness of a (map, heap, counter) triple:
sorted heap, globally unique generations bounded by the counter, and every map
entry agreeing (token, expiry) with any heap record of the same generation,
with such a record present. -/
def WFp (m : Emap) (h : List HeapItem) (g : Nat) : Prop :=
  heapSorted h ∧
  (h.map HeapItem.generation).Nodup ∧
  (∀ r ∈ h, r.generation ≤ g) ∧
  (∀ t e, m t = some e → e.generation ≤ g) ∧
  (∀ r ∈ h, ∀ t e, m t = some e → e.generation = r.generation →
      t = r.token ∧ e.expires_at = r.expires_at) ∧
  (∀ t e, m t = some e → ∃ r, r ∈ h ∧ r.token = t ∧
      r.generation = e.generation ∧ r.expires_at = e.expires_at)

/-- Well-formedness of a cache state. -/
def WF (c : ArbCache) : Prop := WFp c.map c.heap c.generation_counter

/-- The generations of the entries the delivered candidates were built from. -/
def dsGens (ds : List (Nat × ArbItem × Option ArbEntry)) : List Nat :=
  ds.filterMap (fun d => d.2.2.map ArbEntry.generation)

/-- `Avoid c G`: every generation in `G` is retired — it is within the counter
and no current map entry carries it (so no future delivery can carry it). -/
def Avoid (c : ArbCache) (G : List Nat) : Prop :=
  ∀ gn ∈ G, gn ≤ c.generation_counter ∧
    ∀ t e, c.map t = some e → e.generation ≠ gn

/-- The strict `(expiry, generation)` lexicographic order on entries — the pop
order of the underlying priority queue. -/
def entLt (a b : ArbEntry) : Prop :=
  a.expires_at < b.expires_at ∨
    (a.expires_at = b.expires_at ∧ a.generation < b.generation)

/-- The entries the delivered candidates were built from. -/
def dsEntries (ds : List (Nat × ArbItem × Option ArbEntry)) : List ArbEntry :=
  ds.filterMap (fun d => d.2.2)

/-- Concrete cache for witnesses: `"T1"` inserted twice before the first
insert expires (generations 1 and 2, ttl 5). -/
def cacheW : ArbCache :=
  ((ArbCache.new 5).insert 0 "T1" none 11 21 Source.public).insert 1 "T1" none 12
    22 Source.public

/-- The candidate built from the second insert's entry of `cacheW`. -/
def itemW : ArbItem :=
  { token := "T1", pool_address := none, tx_hash := 12, sim_ctx := 22
    source := Source.public }

/-- Concrete single-insert cache for expiry-sweep witnesses (ttl 5). -/
def cacheX : ArbCache := (ArbCache.new 5).insert 0 "T1" none 11 21 Source.public

/-- The three inserts of the ordering scenario (ttl 5): expiries 8, 6 and 7
for tokens `"A"`, `"B"`, `"C"`. -/
def insOpA : Op := Op.ins 3 "A" none 1 1 Source.public

def insOpB : Op := Op.ins 1 "B" none 2 2 Source.public

def insOpC : Op := Op.ins 2 "C" none 3 3 Source.public

/-- All six insertion orders of the three scenario inserts. -/
def threeInsertOrders : List (List Op) :=
  [[insOpA, insOpB, insOpC], [insOpA, insOpC, insOpB],
   [insOpB, insOpA, insOpC], [insOpB, insOpC, insOpA],
   [insOpC, insOpA, insOpB], [insOpC, insOpB, insOpA]]

/-- The drain loop of `ArbStrategy::process_event` (`src/strategy/mod.rs`):
up to `fuel = num_to_send` iterations, each calling `pop_one`; a popped
candidate whose token is in `recent_arbs` is silently dropped (the iteration is
still consumed); otherwise it is sent, its token pushed onto the back of the
window, and the front of the window evicted if the window now exceeds
`max_recent_arbs`; an unsuccessful pop breaks the loop.  Returns (sent
candidates in order, cache after, window after).  The `VecDeque` window is a
list with `push_back = append` and `pop_front = tail`. -/
def drain (now : Nat) : Nat → ArbCache → List String → Nat →
    List ArbItem × ArbCache × List String
  | 0, c, recent, _ => ([], c, recent)
  | fuel + 1, c, recent, maxR =>
    match c.popOne now with
    | (some item, c₂) =>
      if item.token ∈ recent then
        drain now fuel c₂ recent maxR
      else
        let recent₁ := recent ++ [item.token]
        let recent₂ := if maxR < recent₁.length then recent₁.tail else recent₁
        let r := drain now fuel c₂ recent₂ maxR
        (item :: r.1, r.2)
    | (none, c₂) => ([], c₂, recent)

/-- Removing the expired tokens from the window
(`if let Some(pos) = position(..) { remove(pos) }` removes the first
occurrence of each reported token). -/
def removeTokens (l : List String) (ex : List String) : List String :=
  ex.foldl List.erase l

/-- The post-event part of `ArbStrategy::process_event`
(`src/strategy/mod.rs` lines 352-381), as a function of the current work
channel length `L`: if `L < 10`, drain up to `10 - L` candidates into the
channel; otherwise send nothing and signal the backpressure warning; in either
case run `remove_expired` on the resulting cache and remove each reported key
from the window.  Returns (sent candidates, warning flag, cache, window). -/
def processEventPost (now L : Nat) (c : ArbCache) (recent : List String)
    (maxR : Nat) : List ArbItem × Bool × ArbCache × List String :=
  if L < 10 then
    let r := drain now (10 - L) c recent maxR
    let ex := r.2.1.removeExpired now
    (r.1, false, ex.2, removeTokens r.2.2 ex.1)
  else
    let ex := c.removeExpired now
    ([], true, ex.2, removeTokens recent ex.1)

/-! ### Route search (`src/dex/mod.rs`) -/

/-- `WAVAX_ADDRESS` from `src/dex/mod.rs`: the wrapped native token. -/
def WAVAX_ADDRESS : String := "0xB31f66AA3C1e785363F0875A1B74E27b85FD66c7"

/-- `MAX_HOP_COUNT` from `src/dex/mod.rs`. -/
def MAX_HOP_COUNT : Nat := 2

/-- `MAX_POOL_COUNT` from `src/dex/mod.rs`. -/
def MAX_POOL_COUNT : Nat := 10

/-- `MIN_LIQUIDITY` from `src/dex/mod.rs`. -/
def MIN_LIQUIDITY : Nat := 1000

/-- Modelled from the spec: `coin::is_native_coin` lives in the external
`utils` crate, absent from the sources.  Routes terminate at "the chain's
native asset … mapped to its wrapped representation", and the last BFS hop
forces `WAVAX_ADDRESS` as the target, so the native/wrapped asset is WAVAX. -/
def isNativeCoin (s : String) : Bool := s = WAVAX_ADDRESS

/-- The data of a `Box<dyn Dex>` observed by the route search: input/output
coin types, pool address and liquidity.  Pool addresses are modelled as `Nat`. -/
structure Dex where
  coin_in : String
  coin_out : String
  pool_address : Nat
  liquidity : Nat
deriving DecidableEq, Repr

/-- The liquidity index (`DexSearcher::find_dexes`), an external collaborator:
given a token and an optional target token it returns the connecting pools, or
`none` on failure (the BFS skips the token in that case). -/
def DexSearcher := String → Option String → Option (List Dex)

/-- One step of a stable insertion sort, descending by liquidity (the model of
`sort_by_key(Reverse(liquidity))`, which is a stable sort). -/
def insertByLiq (d : Dex) : List Dex → List Dex
  | [] => [d]
  | x :: xs => if x.liquidity ≤ d.liquidity then d :: x :: xs else x :: insertByLiq d xs

/-- Stable sort, descending by liquidity. -/
def sortByLiqDesc : List Dex → List Dex
  | [] => []
  | d :: ds => insertByLiq d (sortByLiqDesc ds)

/-- The mutable state threaded through one BFS phase of `find_sell_paths`:
visited tokens, pools already used in the search, the stack for the next hop,
and the hop-indexed adjacency map. -/
structure PhaseSt where
  visited : List String
  visited_dexes : List Nat
  new_stack : List String
  all_hops : List (String × List Dex)

/-- One phase (`while let Some(token_address) = stack.pop()`) of the BFS in
`find_sell_paths`.  The Rust `Vec` stack pops from the end; the model keeps the
list with its head as the top, pushing by `cons`, which yields the identical
pop order.  For each unvisited, non-native token: query the index (targeting
WAVAX for pegged tokens and on the last hop), drop pools below
`MIN_LIQUIDITY`, and if more than `MAX_POOL_COUNT` pools remain, prefer pools
not already used and keep the highest-liquidity `MAX_POOL_COUNT`; record the
out-tokens on the next-hop stack and the pools used. -/
def bfsPhase (searcher : DexSearcher) (pegged : List String) (isLast : Bool) :
    List String → PhaseSt → PhaseSt
  | [], st => st
  | t :: stack, st =>
    if t ∈ st.visited || isNativeCoin t then
      bfsPhase searcher pegged isLast stack st
    else
      let visited₁ := t :: st.visited
      let tokenOut := if t ∈ pegged || isLast then some WAVAX_ADDRESS else none
      match searcher t tokenOut with
      | none => bfsPhase searcher pegged isLast stack { st with visited := visited₁ }
      | some dexes0 =>
        let dexes1 := dexes0.filter (fun d => MIN_LIQUIDITY ≤ d.liquidity)
        let dexes2 :=
          if MAX_POOL_COUNT < dexes1.length then
            (sortByLiqDesc (dexes1.filter
              (fun d => d.pool_address ∉ st.visited_dexes))).take MAX_POOL_COUNT
          else dexes1
        if dexes2.isEmpty then
          bfsPhase searcher pegged isLast stack { st with visited := visited₁ }
        else
          let newStack₁ := dexes2.foldl
            (fun ns d => if d.coin_out ∈ visited₁ then ns else d.coin_out :: ns)
            st.new_stack
          let vdex₁ := dexes2.foldl (fun vs d => d.pool_address :: vs)
            st.visited_dexes
          bfsPhase searcher pegged isLast stack
            { visited := visited₁, visited_dexes := vdex₁, new_stack := newStack₁
              all_hops := (t, dexes2) :: st.all_hops }

/-- The `for nth_hop in 0..MAX_HOP_COUNT` loop of `find_sell_paths`, counting
the remaining rounds; the phase on the last round targets WAVAX and the loop
breaks afterwards. -/
def bfsRounds (searcher : DexSearcher) (pegged : List String) :
    Nat → List String → PhaseSt → List (String × List Dex)
  | 0, _, st => st.all_hops
  | r + 1, stack, st =>
    let isLast := r == 0
    let st₂ := bfsPhase searcher pegged isLast stack { st with new_stack := [] }
    if isLast then st₂.all_hops
    else bfsRounds searcher pegged r st₂.new_stack { st₂ with new_stack := [] }

/-- The `dfs` of `src/dex/mod.rs`, enumerating routes from the hop map.  The
source cuts a branch at `path.len() >= MAX_HOP_COUNT`; the model passes
`fuel = MAX_HOP_COUNT - path.len()` as the structurally decreasing argument
(which is also the termination argument of the Rust recursion) and returns the
route suffixes instead of mutating a shared path accumulator. -/
def dfs (hops : List (String × List Dex)) : Nat → String → List (List Dex)
  | fuel, token =>
    if isNativeCoin token then [[]]
    else
      match fuel with
      | 0 => []
      | f + 1 =>
        match hops.lookup token with
        | none => []
        | some dexes =>
          dexes.flatMap (fun d => (dfs hops f d.coin_out).map (fun rt => d :: rt))

/-- Modelled from the spec: `Path` (from `trade.rs`, which is absent from the
sources) is "an ordered sequence of hop descriptors"; `Path::default()` is the
empty path and `Path::new(route)` wraps a route. -/
abbrev Path := List Dex

/-- `Defi::find_sell_paths` from `src/dex/mod.rs`: native tokens yield the
single default path; otherwise run the bounded BFS and enumerate routes by
`dfs`. -/
def findSellPaths (searcher : DexSearcher) (pegged : List String)
    (token_in : String) : List Path :=
  if isNativeCoin token_in then [[]]
  else
    let hops := bfsRounds searcher pegged MAX_HOP_COUNT [token_in]
      { visited := [], visited_dexes := [], new_stack := [], all_hops := [] }
    dfs hops MAX_HOP_COUNT token_in

/-- Consecutive hops chain: each hop starts at the previous hop's output token
(the first at the start token). -/
def chainedFrom : String → List Dex → Prop
  | _, [] => True
  | t, d :: ds => d.coin_in = t ∧ chainedFrom d.coin_out ds

/-- The route ends at the native/wrapped asset (an empty route only stands at
the native token itself). -/
def endsAtNative (t : String) (r : List Dex) : Prop :=
  match r.getLast? with
  | some d => isNativeCoin d.coin_out = true
  | none => isNativeCoin t = true

/-- The documented contract of the liquidity index: `find_dexes(token, _)`
returns pools whose input side is the queried token. -/
def SearcherContract (searcher : DexSearcher) : Prop :=
  ∀ t tgt ds, searcher t tgt = some ds → ∀ d ∈ ds, d.coin_in = t

/-- Hop-map well-formedness: every recorded pool starts at its key token. -/
def HopsWF (hops : List (String × List Dex)) : Prop :=
  ∀ t ds, hops.lookup t = some ds → ∀ d ∈ ds, d.coin_in = t

/-- First pool of the pool-reuse counterexample: trades `"A"` into `"X"`
through pool 7 (a multi-token pool can serve several coin pairs). -/
def dexAX : Dex := { coin_in := "A", coin_out := "X", pool_address := 7, liquidity := 1000 }

/-- Second pool of the pool-reuse counterexample: trades `"X"` into WAVAX
through the same pool 7. -/
def dexXW : Dex :=
  { coin_in := "X", coin_out := WAVAX_ADDRESS, pool_address := 7, liquidity := 1000 }

/-- The liquidity index of the pool-reuse counterexample. -/
def cexSearcher : DexSearcher := fun t tgt =>
  if t = "A" ∧ tgt = none then some [dexAX]
  else if t = "X" ∧ tgt = some WAVAX_ADDRESS then some [dexXW]
  else none

/-! ### Best-route selection (`src/dex/mod.rs`) -/

/-- `TradeResult` from the missing `trade.rs`, as consumed by
`PathTradeResult::new` in `src/dex/mod.rs`: output amount, gas cost and cache
misses.  `TradeResult::default()` is all zeroes. -/
structure TradeResult where
  amount_out : Nat
  gas_cost : Int
  cache_misses : Nat
deriving DecidableEq, Repr

/-- `TradeResult::default()`. -/
def TradeResult.dflt : TradeResult := { amount_out := 0, gas_cost := 0, cache_misses := 0 }

/-- Modelled from the spec: the `Ord` of `TradeResult` (in the missing
`trade.rs`) compares quotes "by net economic outcome (output minus input minus
gas)"; the input amount is identical for every quote of one call, so the order
compares `amount_out - gas_cost`. -/
def TradeResult.net (r : TradeResult) : Int := (r.amount_out : Int) - r.gas_cost

/-- One step of the `while let Some(Ok((idx, trade_res))) = joinset.join_next()`
selection loop of `find_best_path_exact_in`: a failed quote is ignored; a
successful quote replaces the current best only if strictly greater. -/
def selectStep (best : Nat × TradeResult) (p : Nat × Option TradeResult) :
    Nat × TradeResult :=
  match p.2 with
  | some r => if best.2.net < r.net then (p.1, r) else best
  | none => best

/-- The selection loop, folded over the task results in completion order,
starting from `(best_idx, best_trade_res) = (0, TradeResult::default())`. -/
def selectBest (completed : List (Nat × Option TradeResult)) : Nat × TradeResult :=
  completed.foldl selectStep (0, TradeResult.dflt)

/-- `Defi::find_best_path_exact_in` after all quote tasks completed: select the
best quote, fail with "zero amount_out" unless its output is strictly
positive, otherwise return the selected path with the quote. -/
def findBestPathExactIn (paths : List Path) (amount_in : Nat)
    (completed : List (Nat × Option TradeResult)) :
    Except String (Path × Nat × TradeResult) :=
  let best := selectBest completed
  if 0 < best.2.amount_out then
    Except.ok (paths.getD best.1 [], amount_in, best.2)
  else
    Except.error "zero amount_out"

/-- The quote tasks spawned by `find_best_path_exact_in`: one per non-empty
path, indexed by the path's position, with result `q idx`. -/
def spawnedQuotes (paths : List Path) (q : Nat → Option TradeResult) :
    List (Nat × Option TradeResult) :=
  (paths.enum.filter (fun p => !p.2.isEmpty)).map (fun p => (p.1, q p.1))

/-- A completion order of the concurrent quote tasks: any permutation of the
spawned tasks' results. -/
def ValidCompletion (paths : List Path) (q : Nat → Option TradeResult)
    (completed : List (Nat × Option TradeResult)) : Prop :=
  completed.Perm (spawnedQuotes paths q)

/-- Paths of the tie counterexample (distinct single-hop paths). -/
def pathA : Path := [dexAX]

def pathB : Path := [dexXW]

/-- Both routes receive the same quote. -/
def qTie : Nat → Option TradeResult := fun _ =>
  some { amount_out := 5, gas_cost := 0, cache_misses := 0 }

/-- Completion order in which route 0 finishes first. -/
def tieCompleted₁ : List (Nat × Option TradeResult) :=
  [(0, qTie 0), (1, qTie 1)]

/-- Completion order in which route 1 finishes first. -/
def tieCompleted₂ : List (Nat × Option TradeResult) :=
  [(1, qTie 1), (0, qTie 0)]

/-- The strictly greatest quote of the unique-maximum scenario. -/
def q5 : TradeResult := { amount_out := 5, gas_cost := 0, cache_misses := 0 }

/-- The strictly smaller quote of the unique-maximum scenario. -/
def q3 : TradeResult := { amount_out := 3, gas_cost := 0, cache_misses := 0 }

/-- Route 0 quotes `q5`, every other route `q3`. -/
def qUnique : Nat → Option TradeResult := fun i =>
  if i = 0 then some q5 else some q3

/-- Completion order in which route 0 finishes first. -/
def uniqCompleted₁ : List (Nat × Option TradeResult) :=
  [(0, some q5), (1, some q3)]

/-- Completion order in which route 1 finishes first. -/
def uniqCompleted₂ : List (Nat × Option TradeResult) :=
  [(1, some q3), (0, some q5)]

/-! ### Worker dry-run gate (`src/strategy/worker.rs`) -/

/-- The fields of `ethers::types::TransactionRequest` the worker manipulates
(`from` is spelled `fromAddr`, `from` being reserved in Lean); `payload`
stands for the remaining fields. -/
structure TransactionRequest where
  fromAddr : Option Nat
  gas_price : Option Nat
  gas : Option Nat
  payload : Nat
deriving DecidableEq, Repr

/-- `Worker::update_gas_estimates`: set gas price 25 gwei, gas limit 300000,
and the sender, regardless of any other input. -/
def updateGasEstimates (sender : Nat) (tx_request : TransactionRequest) :
    TransactionRequest :=
  { tx_request with
    gas_price := some 25000000000
    gas := some 300000
    fromAddr := some sender }

/-- The simulation backend's answer to `simulate_tx_request` (`none` models a
transport/simulator error propagated by `?`). -/
structure SimResponse where
  success : Bool
  profit : Nat
deriving DecidableEq, Repr

/-- `Worker::dry_run_tx_request`: refresh the gas fields, simulate, and demand
success and strictly positive profit. -/
def dryRunTxRequest (sender : Nat)
    (simulate : TransactionRequest → Option SimResponse)
    (tx_request : TransactionRequest) : Except String TransactionRequest :=
  let tx := updateGasEstimates sender tx_request
  match simulate tx with
  | none => Except.error "simulator error"
  | some resp =>
    if resp.success = true then
      if 0 < resp.profit then Except.ok tx
      else Except.error "No profit from dry run"
    else Except.error "Dry run failed"

/-- `Action` from `src/types.rs` (telegram messages modelled as `Nat`). -/
inductive Action where
  | notifyViaTelegram (msg : Nat) : Action
  | executePublicTx (tx : TransactionRequest) : Action
  | mevRelaySubmitBid (tx : TransactionRequest) (bid_amount : Nat)
      (tx_hash : Nat) : Action
deriving DecidableEq, Repr

/-- Modelled from the spec and the worker's usage: the opportunity produced by
the missing `arb` module's `find_opportunity` — a draft transaction plus the
candidate's origin (the timing fields are irrelevant to the claims). -/
structure ArbResultM where
  tx_data : TransactionRequest
  source : Source
deriving DecidableEq, Repr

/-- `Worker::handle_arb_item`: `opportunity` is the outcome of
`arbitrage_one_token` (`none` = no opportunity, non-fatal), `simulate` the
checked-out simulation backend, `tg_msgs` the notification messages built by
`new_tg_messages`.  Returns the actions submitted to the action sink and the
function's `Result` (always `Ok`: a dry-run failure only logs). -/
def handleArbItem (sender : Nat)
    (simulate : TransactionRequest → Option SimResponse)
    (tg_msgs : List Nat) (opportunity : Option ArbResultM) (tx_hash : Nat) :
    List Action × Except String Unit :=
  match opportunity with
  | none => ([], Except.ok ())
  | some arb_result =>
    match dryRunTxRequest sender simulate arb_result.tx_data with
    | Except.error _ => ([], Except.ok ())
    | Except.ok tx_request =>
      let action :=
        match arb_result.source with
        | Source.mevRelay _ bid_amount _ _ _ =>
          Action.mevRelaySubmitBid tx_request bid_amount tx_hash
        | _ => Action.executePublicTx tx_request
      (action :: tg_msgs.map Action.notifyViaTelegram, Except.ok ())

/-- Modelled from the spec: "Refresh the draft transaction's gas price/limit
fields from current network conditions" — the refreshed transaction carries
the network's current gas price. -/
def networkRefreshedGasPrice (networkGasPrice : Nat)
    (tx : TransactionRequest) : Prop :=
  tx.gas_price = some networkGasPrice

/-- A blank draft transaction for the gas-estimate counterexample. -/
def txW : TransactionRequest :=
  { fromAddr := none, gas_price := none, gas := none, payload := 0 }

/-- A simulation backend that always reports success with profit 1 (for
witnesses). -/
def simOK : TransactionRequest → Option SimResponse := fun _ =>
  some { success := true, profit := 1 }

theorem hlt_iff (a b : HeapItem) : hlt a b = true ↔
    (a.expires_at < b.expires_at ∨
      (a.expires_at = b.expires_at ∧ a.generation < b.generation)) := by
  simp [hlt]

theorem hlt_trans {a b c : HeapItem} (h₁ : hlt a b = true) (h₂ : hlt b c = true) :
    hlt a c = true := by
  rw [hlt_iff] at h₁ h₂ ⊢; omega

theorem hlt_total {a b : HeapItem} (h : a.generation ≠ b.generation) :
    hlt a b = true ∨ hlt b a = true := by
  rw [hlt_iff, hlt_iff]; omega

theorem mem_heapPush {r x : HeapItem} {l : List HeapItem} :
    x ∈ heapPush r l ↔ x = r ∨ x ∈ l := by
  induction l with
  | nil => simp [heapPush]
  | cons y ys ih =>
    simp only [heapPush]
    split
    · simp [or_left_comm, or_comm]
    · simp [ih, or_left_comm]

theorem heapPush_gens_perm (r : HeapItem) (l : List HeapItem) :
    ((heapPush r l).map HeapItem.generation).Perm
      (r.generation :: l.map HeapItem.generation) := by
  induction l with
  | nil => simp [heapPush]
  | cons y ys ih =>
    simp only [heapPush]
    split
    · simp
    · simpa using (ih.cons y.generation).trans (List.Perm.swap _ _ _)

theorem heapPush_pairwise {r : HeapItem} {l : List HeapItem}
    (hs : heapSorted l) (hg : ∀ y ∈ l, y.generation ≠ r.generation) :
    heapSorted (heapPush r l) := by
  induction l with
  | nil => simp [heapPush, heapSorted]
  | cons y ys ih =>
    rcases List.pairwise_cons.1 hs with ⟨hy, hys⟩
    simp only [heapPush]
    split
    · rename_i hcmp
      refine List.pairwise_cons.2 ⟨?_, hs⟩
      intro z hz
      rcases List.mem_cons.1 hz with rfl | hz
      · exact hcmp
      · exact hlt_trans hcmp (hy z hz)
    · rename_i hcmp
      refine List.pairwise_cons.2 ⟨?_, ih hys fun z hz => hg z (List.mem_cons_of_mem _ hz)⟩
      intro z hz
      rcases mem_heapPush.1 hz with rfl | hz
      · rcases hlt_total (fun he => hg y (List.mem_cons_self _ _) he.symm) with h | h
        · exact absurd h hcmp
        · exact h
      · exact hy z hz

theorem mapErase_sub {t : String} {m : Emap} {s : String} {e : ArbEntry}
    (h : mapErase t m s = some e) : m s = some e ∧ s ≠ t := by
  by_cases hs : s = t <;> simp [mapErase, hs] at h ⊢ <;> exact h

theorem mapErase_self (t : String) (m : Emap) : mapErase t m t = none := by
  simp [mapErase]

theorem mapErase_other {t s : String} (m : Emap) (h : s ≠ t) :
    mapErase t m s = m s := by
  simp [mapErase, h]

theorem mapInsert_self (t : String) (e : ArbEntry) (m : Emap) :
    mapInsert t e m t = some e := by
  simp [mapInsert]

theorem mapInsert_other {t s : String} (e : ArbEntry) (m : Emap) (h : s ≠ t) :
    mapInsert t e m s = m s := by
  simp [mapInsert, h]

/-! ### Characterization of `pop_one` -/

/-- If the `pop_one` loop returns a candidate, then that candidate was built
from a popped heap record `top` and the *current* map entry `e` for its token:
the generations match, the entry has not yet expired, the entry's payload is
copied into the item, the entry is removed from the map (and nothing else is
added), and the remaining heap is the part strictly below `top`. -/
theorem popOneAux_some (now : Nat) :
    ∀ (h : List HeapItem) (m : Emap) (item : ArbItem) (m' : Emap)
      (h' : List HeapItem),
      popOneAux now m h = (some item, m', h') →
      ∃ top e,
        (top :: h') <:+ h ∧
        item.token = top.token ∧ item.pool_address = top.pool_address ∧
        m top.token = some e ∧ e.generation = top.generation ∧
        now < e.expires_at ∧
        item.tx_hash = e.hash ∧ item.sim_ctx = e.sim_ctx ∧
        item.source = e.source ∧
        m' top.token = none ∧ (∀ s e₂, m' s = some e₂ → m s = some e₂) := by
  intro h
  induction h with
  | nil => intro m item m' h' hp; simp [popOneAux] at hp
  | cons top rest ih =>
    intro m item m' h' hp
    simp only [popOneAux] at hp
    split at hp
    · rename_i entry hm
      split at hp
      · rename_i hgen
        split at hp
        · rename_i hexp
          simp only [Prod.mk.injEq, Option.some.injEq] at hp
          obtain ⟨hitem, hm', hh'⟩ := hp
          subst hm' hh'
          refine ⟨top, entry, List.suffix_refl _, ?_⟩
          subst hitem
          refine ⟨rfl, rfl, hm, hgen, hexp, rfl, rfl, rfl, mapErase_self _ _, ?_⟩
          exact fun s e₂ hs => (mapErase_sub hs).1
        · obtain ⟨t₂, e₂, hsfx, ht, hpool, hlook, hgen₂, hexp₂, hhash, hctx, hsrc,
            hnone, hsub⟩ := ih _ item m' h' hp
          obtain ⟨hlook', _⟩ := mapErase_sub hlook
          exact ⟨t₂, e₂, hsfx.trans (List.suffix_cons top rest), ht, hpool, hlook',
            hgen₂, hexp₂, hhash, hctx, hsrc, hnone,
            fun s e₃ hs => (mapErase_sub (hsub s e₃ hs)).1⟩
      · obtain ⟨t₂, e₂, hsfx, rest'⟩ := ih m item m' h' hp
        exact ⟨t₂, e₂, hsfx.trans (List.suffix_cons top rest), rest'⟩
    · obtain ⟨t₂, e₂, hsfx, rest'⟩ := ih m item m' h' hp
      exact ⟨t₂, e₂, hsfx.trans (List.suffix_cons top rest), rest'⟩

/-- If the `pop_one` loop returns `None`, the heap was exhausted (drained to
empty) without a returnable record, and the map only shrank. -/
theorem popOneAux_none (now : Nat) :
    ∀ (h : List HeapItem) (m : Emap) (m' : Emap) (h' : List HeapItem),
      popOneAux now m h = (none, m', h') →
      h' = [] ∧ (∀ s e₂, m' s = some e₂ → m s = some e₂) := by
  intro h
  induction h with
  | nil =>
    intro m m' h' hp
    simp only [popOneAux] at hp
    have hm : m = m' := congrArg (fun p => p.2.1) hp
    have hh : ([] : List HeapItem) = h' := congrArg (fun p => p.2.2) hp
    exact ⟨hh.symm, fun s e₂ hs => by rw [hm]; exact hs⟩
  | cons top rest ih =>
    intro m m' h' hp
    simp only [popOneAux] at hp
    split at hp
    · rename_i entry hm
      split at hp
      · split at hp
        · simp at hp
        · obtain ⟨hh, hsub⟩ := ih _ m' h' hp
          exact ⟨hh, fun s e₂ hs => (mapErase_sub (hsub s e₂ hs)).1⟩
      · exact ih m m' h' hp
    · exact ih m m' h' hp

/-! ### Preservation of well-formedness -/

/-- Dropping the head record while erasing its token preserves well-formedness. -/
theorem WFp_tail_erase {m : Emap} {top : HeapItem} {rest : List HeapItem} {g : Nat}
    (hw : WFp m (top :: rest) g) : WFp (mapErase top.token m) rest g := by
  obtain ⟨hsort, hnodup, hhb, hmb, hlink, hpres⟩ := hw
  refine ⟨(List.pairwise_cons.1 hsort).2, (List.nodup_cons.1 (by simpa using hnodup)).2,
    fun r hr => hhb r (List.mem_cons_of_mem _ hr),
    fun t e he => hmb t e (mapErase_sub he).1,
    fun r hr t e he hg => hlink r (List.mem_cons_of_mem _ hr) t e (mapErase_sub he).1 hg,
    fun t e he => ?_⟩
  obtain ⟨he', hne⟩ := mapErase_sub he
  obtain ⟨r, hr, hrt, hrg, hre⟩ := hpres t e he'
  rcases List.mem_cons.1 hr with rfl | hr
  · exact absurd hrt.symm hne
  · exact ⟨r, hr, hrt, hrg, hre⟩

/-- Dropping a head record that is not the live record of any current map entry
(stale: entry missing, or generation mismatch) preserves well-formedness. -/
theorem WFp_tail_keep {m : Emap} {top : HeapItem} {rest : List HeapItem} {g : Nat}
    (hw : WFp m (top :: rest) g)
    (hstale : ∀ e, m top.token = some e → e.generation ≠ top.generation) :
    WFp m rest g := by
  obtain ⟨hsort, hnodup, hhb, hmb, hlink, hpres⟩ := hw
  refine ⟨(List.pairwise_cons.1 hsort).2, (List.nodup_cons.1 (by simpa using hnodup)).2,
    fun r hr => hhb r (List.mem_cons_of_mem _ hr), hmb,
    fun r hr t e he hg => hlink r (List.mem_cons_of_mem _ hr) t e he hg,
    fun t e he => ?_⟩
  obtain ⟨r, hr, hrt, hrg, hre⟩ := hpres t e he
  rcases List.mem_cons.1 hr with rfl | hr
  · subst hrt
    exact absurd (hrg.symm.trans rfl) (hstale e he)
  · exact ⟨r, hr, hrt, hrg, hre⟩

/-- The `pop_one` loop preserves well-formedness. -/
theorem popOneAux_WFp (now : Nat) :
    ∀ (h : List HeapItem) (m : Emap) {g : Nat}, WFp m h g →
      WFp (popOneAux now m h).2.1 (popOneAux now m h).2.2 g := by
  intro h
  induction h with
  | nil => intro m g hw; simpa [popOneAux] using hw
  | cons top rest ih =>
    intro m g hw
    simp only [popOneAux]
    split
    · rename_i entry hm
      split
      · rename_i hgen
        split
        · exact WFp_tail_erase hw
        · exact ih _ (WFp_tail_erase hw)
      · rename_i hgen
        refine ih _ (WFp_tail_keep hw fun e he => ?_)
        rw [hm] at he
        cases he
        exact hgen
    · rename_i hm
      refine ih _ (WFp_tail_keep hw fun e he => ?_)
      rw [hm] at he
      cases he

/-- `pop_one` preserves well-formedness. -/
theorem WF_popOne {c : ArbCache} (now : Nat) (hw : WF c) : WF (c.popOne now).2 :=
  popOneAux_WFp now c.heap c.map hw

/-- The `remove_expired` sweep preserves well-formedness. -/
theorem removeExpiredAux_WFp (now : Nat) :
    ∀ (h : List HeapItem) (m : Emap) {g : Nat}, WFp m h g →
      WFp (removeExpiredAux now m h).2.1 (removeExpiredAux now m h).2.2 g := by
  intro h
  induction h with
  | nil => intro m g hw; simpa [removeExpiredAux] using hw
  | cons top rest ih =>
    intro m g hw
    simp only [removeExpiredAux]
    split
    · rename_i entry hm
      split
      · rename_i hgen
        refine ih _ (WFp_tail_keep hw fun e he => ?_)
        rw [hm] at he
        cases he
        exact hgen
      · split
        · exact ih _ (WFp_tail_erase hw)
        · exact hw
    · rename_i hm
      refine ih _ (WFp_tail_keep hw fun e he => ?_)
      rw [hm] at he
      cases he

/-- `remove_expired` preserves well-formedness. -/
theorem WF_removeExpired {c : ArbCache} (now : Nat) (hw : WF c) :
    WF (c.removeExpired now).2 :=
  removeExpiredAux_WFp now c.heap c.map hw

/-- The sweep only shrinks the map. -/
theorem removeExpiredAux_sub (now : Nat) :
    ∀ (h : List HeapItem) (m : Emap) (s : String) (e : ArbEntry),
      (removeExpiredAux now m h).2.1 s = some e → m s = some e := by
  intro h
  induction h with
  | nil => intro m s e he; simpa [removeExpiredAux] using he
  | cons top rest ih =>
    intro m s e he
    simp only [removeExpiredAux] at he
    split at he
    · rename_i entry hm
      split at he
      · exact ih m s e he
      · split at he
        · exact (mapErase_sub (ih _ s e he)).1
        · exact he
    · exact ih m s e he

/-- Inserting a fresh generation `g + 1` into a well-formed (map, heap, counter)
triple preserves well-formedness. -/
theorem WFp_insert {m : Emap} {h : List HeapItem} {g : Nat} (hw : WFp m h g)
    (token : String) (pool : Option Nat) (hash ctx : Nat) (src : Source)
    (exp : Nat) :
    WFp (mapInsert token ⟨hash, ctx, g + 1, exp, src⟩ m)
      (heapPush ⟨exp, g + 1, token, pool⟩ h) (g + 1) := by
  obtain ⟨hsort, hnodup, hhb, hmb, hlink, hpres⟩ := hw
  refine ⟨?_, ?_, ?_, ?_, ?_, ?_⟩
  · refine heapPush_pairwise hsort fun y hy hyg => ?_
    have := hhb y hy
    simp only [HeapItem.mk.injEq] at hyg
    omega
  · refine ((heapPush_gens_perm _ h).nodup_iff).2 (List.nodup_cons.2 ⟨?_, hnodup⟩)
    intro hmem
    obtain ⟨y, hy, hyg⟩ := List.mem_map.1 hmem
    have := hhb y hy
    simp only at hyg
    omega
  · intro x hx
    rcases mem_heapPush.1 hx with rfl | hx
    · simp
    · exact le_trans (hhb x hx) (by omega)
  · intro t e₂ he₂
    by_cases ht : t = token
    · rw [ht, mapInsert_self] at he₂
      injection he₂ with he₂
      subst he₂
      simp
    · rw [mapInsert_other _ _ ht] at he₂
      exact le_trans (hmb t e₂ he₂) (by omega)
  · intro x hx t e₂ he₂ hge
    rcases mem_heapPush.1 hx with rfl | hx
    · by_cases ht : t = token
      · rw [ht, mapInsert_self] at he₂
        injection he₂ with he₂
        subst he₂
        exact ⟨ht, rfl⟩
      · rw [mapInsert_other _ _ ht] at he₂
        have := hmb t e₂ he₂
        simp only at hge
        omega
    · by_cases ht : t = token
      · rw [ht, mapInsert_self] at he₂
        injection he₂ with he₂
        subst he₂
        have := hhb x hx
        simp only at hge
        omega
      · rw [mapInsert_other _ _ ht] at he₂
        exact hlink x hx t e₂ he₂ hge
  · intro t e₂ he₂
    by_cases ht : t = token
    · rw [ht, mapInsert_self] at he₂
      injection he₂ with he₂
      subst he₂
      exact ⟨⟨exp, g + 1, token, pool⟩, mem_heapPush.2 (Or.inl rfl), ht.symm, rfl, rfl⟩
    · rw [mapInsert_other _ _ ht] at he₂
      obtain ⟨x, hx, hxt, hxg, hxe⟩ := hpres t e₂ he₂
      exact ⟨x, mem_heapPush.2 (Or.inr hx), hxt, hxg, hxe⟩

/-- `ArbCache::insert` preserves well-formedness. -/
theorem WF_insert {c : ArbCache} (now : Nat) (token : String) (pool : Option Nat)
    (hash ctx : Nat) (src : Source) (hw : WF c) :
    WF (c.insert now token pool hash ctx src) :=
  WFp_insert hw token pool hash ctx src (now + c.expiration_duration)

/-- The empty cache is well-formed. -/
theorem WF_new (ttl : Nat) : WF (ArbCache.new ttl) := by
  refine ⟨by simp [ArbCache.new, heapSorted], by simp [ArbCache.new], ?_, ?_, ?_, ?_⟩ <;>
    simp [ArbCache.new]

/-- Cache-level characterization of a successful `pop_one`. -/
theorem popOne_some {c : ArbCache} {now : Nat} {item : ArbItem} {c₂ : ArbCache}
    (hp : c.popOne now = (some item, c₂)) :
    c₂.generation_counter = c.generation_counter ∧
    c₂.expiration_duration = c.expiration_duration ∧
    ∃ top e,
      (top :: c₂.heap) <:+ c.heap ∧
      item.token = top.token ∧ item.pool_address = top.pool_address ∧
      c.map top.token = some e ∧ e.generation = top.generation ∧
      now < e.expires_at ∧
      item.tx_hash = e.hash ∧ item.sim_ctx = e.sim_ctx ∧
      item.source = e.source ∧
      c₂.map top.token = none ∧ (∀ s e₂, c₂.map s = some e₂ → c.map s = some e₂) := by
  simp only [ArbCache.popOne, Prod.mk.injEq] at hp
  obtain ⟨h1, h2⟩ := hp
  subst h2
  have heq : popOneAux now c.map c.heap =
      (some item, (popOneAux now c.map c.heap).2.1, (popOneAux now c.map c.heap).2.2) := by
    rw [← h1]
  obtain ⟨top, e, hrest⟩ := popOneAux_some now c.heap c.map item _ _ heq
  exact ⟨rfl, rfl, top, e, hrest⟩

/-- Cache-level characterization of an unsuccessful `pop_one`: the heap was
exhausted. -/
theorem popOne_none {c : ArbCache} {now : Nat} {c₂ : ArbCache}
    (hp : c.popOne now = (none, c₂)) :
    c₂.heap = [] ∧ (∀ s e₂, c₂.map s = some e₂ → c.map s = some e₂) ∧
    c₂.generation_counter = c.generation_counter ∧
    c₂.expiration_duration = c.expiration_duration := by
  simp only [ArbCache.popOne, Prod.mk.injEq] at hp
  obtain ⟨h1, h2⟩ := hp
  subst h2
  have heq : popOneAux now c.map c.heap =
      (none, (popOneAux now c.map c.heap).2.1, (popOneAux now c.map c.heap).2.2) := by
    rw [← h1]
  obtain ⟨hh, hsub⟩ := popOneAux_none now c.heap c.map _ _ heq
  exact ⟨hh, hsub, rfl, rfl⟩

/-- Two current map entries with the same generation are the same key. -/
theorem WF_gen_unique {c : ArbCache} (hw : WF c) {t₁ t₂ : String} {e₁ e₂ : ArbEntry}
    (h₁ : c.map t₁ = some e₁) (h₂ : c.map t₂ = some e₂)
    (hg : e₁.generation = e₂.generation) : t₁ = t₂ := by
  obtain ⟨hsort, hnodup, hhb, hmb, hlink, hpres⟩ := hw
  obtain ⟨r, hr, hrt, hrg, hre⟩ := hpres t₁ e₁ h₁
  have h := hlink r hr t₂ e₂ h₂ (by omega)
  exact hrt.symm.trans h.1.symm

/-! ### At-most-once delivery per insert generation (trace semantics) -/

theorem Avoid_insert {c : ArbCache} {G : List Nat} (hA : Avoid c G)
    (now : Nat) (token : String) (pool : Option Nat) (hash ctx : Nat)
    (src : Source) : Avoid (c.insert now token pool hash ctx src) G := by
  intro gn hgn
  obtain ⟨hle, hmap⟩ := hA gn hgn
  refine ⟨by simp only [ArbCache.insert]; omega, ?_⟩
  intro t e he
  simp only [ArbCache.insert] at he
  by_cases ht : t = token
  · rw [ht, mapInsert_self] at he
    injection he with he
    subst he
    simp only
    omega
  · rw [mapInsert_other _ _ ht] at he
    exact hmap t e he

theorem Avoid_sub {c c₂ : ArbCache} {G : List Nat} (hA : Avoid c G)
    (hctr : c₂.generation_counter = c.generation_counter)
    (hsub : ∀ s e₂, c₂.map s = some e₂ → c.map s = some e₂) : Avoid c₂ G := by
  intro gn hgn
  obtain ⟨hle, hmap⟩ := hA gn hgn
  exact ⟨hctr ▸ hle, fun t e he => hmap t e (hsub t e he)⟩

theorem removeExpired_sub {c : ArbCache} (now : Nat) :
    (∀ s e₂, (c.removeExpired now).2.map s = some e₂ → c.map s = some e₂) ∧
    (c.removeExpired now).2.generation_counter = c.generation_counter ∧
    (c.removeExpired now).2.expiration_duration = c.expiration_duration := by
  refine ⟨fun s e₂ he => ?_, rfl, rfl⟩
  exact removeExpiredAux_sub now c.heap c.map s e₂ he

/-- Over any sequence of operations starting from a well-formed cache in which
every generation of `G` is retired, the delivered generations are duplicate-free
and disjoint from `G`. -/
theorem runCache_gens : ∀ (ops : List Op) (c : ArbCache) (G : List Nat),
    WF c → Avoid c G →
    (dsGens (runCache c ops).2).Nodup ∧
    ∀ gn ∈ dsGens (runCache c ops).2, gn ∉ G := by
  intro ops
  induction ops with
  | nil => intro c G hw hA; simp [runCache, dsGens]
  | cons op rest ih =>
    intro c G hw hA
    cases op with
    | ins now t p h x s =>
      simp only [runCache]
      exact ih _ G (WF_insert now t p h x s hw) (Avoid_insert hA now t p h x s)
    | pop now =>
      simp only [runCache]
      rcases hp : c.popOne now with ⟨o, c₂⟩
      cases o with
      | none =>
        obtain ⟨hh, hsub, hctr, hdur⟩ := popOne_none hp
        have hw₂ : WF c₂ := by
          have := WF_popOne now hw
          rw [hp] at this
          exact this
        exact ih c₂ G hw₂ (Avoid_sub hA hctr hsub)
      | some item =>
        obtain ⟨hctr, hdur, top, e, hsfx, htok, hpool, hlook, hgen, hexp, hhash,
          hctx, hsrc, hnone, hsub⟩ := popOne_some hp
        have hw₂ : WF c₂ := by
          have := WF_popOne now hw
          rw [hp] at this
          exact this
        have hlook' : c.map item.token = some e := htok ▸ hlook
        have hgle : e.generation ≤ c.generation_counter := hw.2.2.2.1 item.token e hlook'
        have hA₂ : Avoid c₂ (e.generation :: G) := by
          intro gn hgn
          rcases List.mem_cons.1 hgn with rfl | hgn
          · refine ⟨hctr ▸ hgle, ?_⟩
            intro t₂ e₂ he₂ hge
            have he₂' := hsub t₂ e₂ he₂
            have : t₂ = item.token := WF_gen_unique hw he₂' hlook' hge
            rw [this, htok] at he₂
            rw [hnone] at he₂
            cases he₂
          · exact (Avoid_sub hA hctr hsub) gn hgn
        obtain ⟨hnd, hdisj⟩ := ih c₂ (e.generation :: G) hw₂ hA₂
        have hds : dsGens ((now, item, c.map item.token) :: (runCache c₂ rest).2) =
            e.generation :: dsGens (runCache c₂ rest).2 := by
          simp [dsGens, hlook']
        refine ⟨?_, ?_⟩
        · rw [hds]
          refine List.nodup_cons.2 ⟨?_, hnd⟩
          intro hmem
          exact hdisj _ hmem (List.mem_cons_self _ _)
        · rw [hds]
          intro gn hgn
          rcases List.mem_cons.1 hgn with rfl | hgn
          · intro hginG
            exact (hA e.generation hginG).2 item.token e hlook' rfl
          · intro hginG
            exact hdisj gn hgn (List.mem_cons_of_mem _ hginG)
    | sweep now =>
      simp only [runCache]
      obtain ⟨hsub, hctr, hdur⟩ := removeExpired_sub (c := c) now
      exact ih _ G (WF_removeExpired now hw) (Avoid_sub hA hctr hsub)

/-- Every delivered candidate was built from the then-current map entry for its
token, and delivered strictly before that entry's expiry. -/
theorem runCache_deliveries : ∀ (ops : List Op) (c : ArbCache), WF c →
    ∀ d ∈ (runCache c ops).2,
      ∃ e, d.2.2 = some e ∧ d.1 < e.expires_at ∧
        d.2.1.tx_hash = e.hash ∧ d.2.1.sim_ctx = e.sim_ctx ∧
        d.2.1.source = e.source := by
  intro ops
  induction ops with
  | nil => intro c hw d hd; simp [runCache] at hd
  | cons op rest ih =>
    intro c hw d hd
    cases op with
    | ins now t p h x s =>
      simp only [runCache] at hd
      exact ih _ (WF_insert now t p h x s hw) d hd
    | pop now =>
      simp only [runCache] at hd
      rcases hp : c.popOne now with ⟨o, c₂⟩
      rw [hp] at hd
      have hw₂ : WF c₂ := by
        have := WF_popOne now hw
        rw [hp] at this
        exact this
      cases o with
      | none => exact ih c₂ hw₂ d hd
      | some item =>
        simp only at hd
        rcases List.mem_cons.1 hd with rfl | hd
        · obtain ⟨hctr, hdur, top, e, hsfx, htok, hpool, hlook, hgen, hexp, hhash,
            hctx, hsrc, hnone, hsub⟩ := popOne_some hp
          exact ⟨e, by simp [htok ▸ hlook], hexp, hhash, hctx, hsrc⟩
        · exact ih c₂ hw₂ d hd
    | sweep now =>
      simp only [runCache] at hd
      exact ih _ (WF_removeExpired now hw) d hd

/-! ### Expiry-then-generation ordering of successive pops -/

/-- Successive `pop_one` calls (no interleaved inserts or sweeps) deliver
candidates whose entries are strictly increasing in `(expiry, generation)`;
moreover each delivered entry corresponds to a record of the starting heap. -/
theorem runCache_pops_ordered : ∀ (times : List Nat) (c : ArbCache), WF c →
    (∀ e ∈ dsEntries (runCache c (times.map Op.pop)).2,
       ∃ r, r ∈ c.heap ∧ r.generation = e.generation ∧
         r.expires_at = e.expires_at) ∧
    List.Chain' entLt (dsEntries (runCache c (times.map Op.pop)).2) := by
  intro times
  induction times with
  | nil => intro c hw; simp [runCache, dsEntries]
  | cons now ts ih =>
    intro c hw
    simp only [List.map_cons, runCache]
    rcases hp : c.popOne now with ⟨o, c₂⟩
    have hw₂ : WF c₂ := by
      have := WF_popOne now hw
      rw [hp] at this
      exact this
    obtain ⟨hrec, hchain⟩ := ih c₂ hw₂
    cases o with
    | none =>
      obtain ⟨hh, hsub, hctr, hdur⟩ := popOne_none hp
      have hempty : dsEntries (runCache c₂ (ts.map Op.pop)).2 = [] := by
        rcases he : dsEntries (runCache c₂ (ts.map Op.pop)).2 with _ | ⟨e, es⟩
        · rfl
        · obtain ⟨r, hr, -⟩ := hrec e (he ▸ List.mem_cons_self e es)
          rw [hh] at hr
          cases hr
      simp only
      rw [hempty]
      exact ⟨by simp, by simp⟩
    | some item =>
      obtain ⟨hctr, hdur, top, e, hsfx, htok, hpool, hlook, hgen, hexp, hhash,
        hctx, hsrc, hnone, hsub⟩ := popOne_some hp
      obtain ⟨hsort, hnodup, hhb, hmb, hlink, hpres⟩ := hw
      have htopmem : top ∈ c.heap := hsfx.sublist.subset (List.mem_cons_self _ _)
      have hexpeq : e.expires_at = top.expires_at :=
        (hlink top htopmem top.token e hlook hgen).2
      have hsfxpw : List.Pairwise (fun a b => hlt a b = true) (top :: c₂.heap) :=
        List.Pairwise.sublist hsfx.sublist hsort
      have hlt_top : ∀ r₂ ∈ c₂.heap, hlt top r₂ = true :=
        (List.pairwise_cons.1 hsfxpw).1
      have hds : dsEntries ((now, item, c.map item.token) :: (runCache c₂ (ts.map Op.pop)).2) =
          e :: dsEntries (runCache c₂ (ts.map Op.pop)).2 := by
        simp [dsEntries, htok ▸ hlook]
      simp only
      rw [hds]
      constructor
      · intro e₂ he₂
        rcases List.mem_cons.1 he₂ with rfl | he₂
        · exact ⟨top, htopmem, hgen.symm, hexpeq.symm⟩
        · obtain ⟨r, hr, hrg, hre⟩ := hrec e₂ he₂
          exact ⟨r, hsfx.sublist.subset (List.mem_cons_of_mem _ hr), hrg, hre⟩
      · refine List.chain'_cons'.2 ⟨?_, hchain⟩
        intro y hy
        have hymem := List.mem_of_mem_head? hy
        obtain ⟨r₂, hr₂, hr₂g, hr₂e⟩ := hrec y hymem
        have hlt := hlt_top r₂ hr₂
        rw [hlt_iff] at hlt
        unfold entLt
        omega

/-! ### Characterization of the expiry sweep -/

/-- The sweep reports exactly the keys whose current-generation entry has
passed its expiry (removing them from the map), and leaves every
not-yet-expired entry in place. -/
theorem removeExpiredAux_spec (now : Nat) :
    ∀ (h : List HeapItem) (m : Emap) {g : Nat}, WFp m h g →
      (∀ t, t ∈ (removeExpiredAux now m h).1 ↔
         ∃ e, m t = some e ∧ e.expires_at ≤ now) ∧
      (∀ t ∈ (removeExpiredAux now m h).1, (removeExpiredAux now m h).2.1 t = none) ∧
      (∀ t e, m t = some e → now < e.expires_at →
         (removeExpiredAux now m h).2.1 t = some e) := by
  intro h
  induction h with
  | nil =>
    intro m g hw
    obtain ⟨hsort, hnodup, hhb, hmb, hlink, hpres⟩ := hw
    refine ⟨fun t => ⟨fun ht => absurd ht (by simp [removeExpiredAux]), ?_⟩,
      by simp [removeExpiredAux], fun t e he _ => he⟩
    rintro ⟨e, he, -⟩
    obtain ⟨r, hr, -⟩ := hpres t e he
    cases hr
  | cons top rest ih =>
    intro m g hw
    simp only [removeExpiredAux]
    split
    · rename_i entry hm
      split
      · rename_i hgen
        exact ih m (WFp_tail_keep hw fun e he => by rw [hm] at he; cases he; exact hgen)
      · rename_i hgen
        have hgeq : entry.generation = top.generation := not_not.1 hgen
        split
        · rename_i hexp
          obtain ⟨hiff, hrep, hkeep⟩ := ih _ (WFp_tail_erase hw)
          refine ⟨?_, ?_, ?_⟩
          · intro t
            constructor
            · intro ht
              rcases List.mem_cons.1 ht with rfl | ht
              · exact ⟨entry, hm, hexp⟩
              · obtain ⟨e, he, hee⟩ := (hiff t).1 ht
                exact ⟨e, (mapErase_sub he).1, hee⟩
            · rintro ⟨e, he, hee⟩
              by_cases ht : t = top.token
              · exact ht ▸ List.mem_cons_self _ _
              · refine List.mem_cons_of_mem _ ((hiff t).2 ⟨e, ?_, hee⟩)
                rw [mapErase_other _ ht]
                exact he
          · intro t ht
            rcases List.mem_cons.1 ht with rfl | ht
            · rcases hx : (removeExpiredAux now (mapErase top.token m) rest).2.1 top.token
                with _ | e₂
              · rfl
              · have := removeExpiredAux_sub now rest (mapErase top.token m) _ _ hx
                rw [mapErase_self] at this
                cases this
            · exact hrep t ht
          · intro t e he hlt
            have ht : t ≠ top.token := by
              intro hteq
              rw [hteq, hm] at he
              injection he with he
              subst he
              omega
            refine hkeep t e ?_ hlt
            rw [mapErase_other _ ht]
            exact he
        · rename_i hexp
          obtain ⟨hsort, hnodup, hhb, hmb, hlink, hpres⟩ := hw
          have htopexp : entry.expires_at = top.expires_at :=
            (hlink top (List.mem_cons_self _ _) top.token entry hm hgeq).2
          refine ⟨fun t => ⟨fun ht => absurd ht (by simp), ?_⟩, by simp,
            fun t e he _ => he⟩
          rintro ⟨e, he, hee⟩
          obtain ⟨r, hr, hrt, hrg, hre⟩ := hpres t e he
          exfalso
          rcases List.mem_cons.1 hr with rfl | hr
          · have := (hlink r (List.mem_cons_self _ _) t e he (by omega)).2
            omega
          · have := (List.pairwise_cons.1 hsort).1 r hr
            rw [hlt_iff] at this
            omega
    · rename_i hm
      exact ih m (WFp_tail_keep hw fun e he => by rw [hm] at he; cases he)

/-! ### Claim theorems for the admission cache -/

/-- C1: `pop_one` delivers each insert generation at most once and never after
its expiry.  (i) A successful `pop_one` returns a candidate built from a popped
heap record whose generation equals the current map entry's generation and
whose entry is not yet expired, removing that entry from the map — so a
superseded (older-generation) record is never returned and an expired record is
never returned.  (ii) `pop_one` returns `None` only once the heap is exhausted.
(iii) Over every sequence of cache operations from a fresh cache, the delivered
generations are pairwise distinct (at-most-once delivery per insert generation)
and every delivery happens strictly before its entry's expiry.  (iv) Scenario:
inserting `"T1"` twice before the first expires, `pop_one` returns the
candidate built from generation 2 exactly once and never surfaces
generation 1's data. -/
theorem c1_pop_one_at_most_once_per_generation :
    (∀ (c : ArbCache) (now : Nat) (item : ArbItem) (c₂ : ArbCache),
       c.popOne now = (some item, c₂) →
       ∃ top e,
         (top :: c₂.heap) <:+ c.heap ∧
         item.token = top.token ∧ item.pool_address = top.pool_address ∧
         c.map top.token = some e ∧ e.generation = top.generation ∧
         now < e.expires_at ∧
         item.tx_hash = e.hash ∧ item.sim_ctx = e.sim_ctx ∧
         item.source = e.source ∧
         c₂.map top.token = none) ∧
    (∀ (c : ArbCache) (now : Nat) (c₂ : ArbCache),
       c.popOne now = (none, c₂) → c₂.heap = []) ∧
    (∀ (ttl : Nat) (ops : List Op),
       (dsGens (runCache (ArbCache.new ttl) ops).2).Nodup ∧
       ∀ d ∈ (runCache (ArbCache.new ttl) ops).2,
         ∃ e, d.2.2 = some e ∧ d.1 < e.expires_at ∧
           d.2.1.tx_hash = e.hash ∧ d.2.1.sim_ctx = e.sim_ctx ∧
           d.2.1.source = e.source) ∧
    (runCache (ArbCache.new 5)
        [Op.ins 0 "T1" none 11 21 Source.public,
         Op.ins 1 "T1" none 12 22 Source.public,
         Op.pop 2, Op.pop 2]).2 =
      [(2, { token := "T1", pool_address := none, tx_hash := 12, sim_ctx := 22
             source := Source.public },
        some { hash := 12, sim_ctx := 22, generation := 2, expires_at := 6
               source := Source.public })] := by
  refine ⟨?_, ?_, ?_, by decide⟩
  · intro c now item c₂ hp
    obtain ⟨-, -, top, e, h₁, h₂, h₃, h₄, h₅, h₆, h₇, h₈, h₉, h₁₀, -⟩ :=
      popOne_some hp
    exact ⟨top, e, h₁, h₂, h₃, h₄, h₅, h₆, h₇, h₈, h₉, h₁₀⟩
  · intro c now c₂ hp
    exact (popOne_none hp).1
  · intro ttl ops
    have hA : Avoid (ArbCache.new ttl) [] := fun gn hgn => absurd hgn (by simp)
    exact ⟨(runCache_gens ops (ArbCache.new ttl) [] (WF_new ttl) hA).1,
      runCache_deliveries ops (ArbCache.new ttl) (WF_new ttl)⟩

/-- Witness for C1: concrete instantiation of the success characterization on
`cacheW` (two inserts of `"T1"`), and of the exhaustion case on the empty
cache. -/
theorem c1_pop_one_at_most_once_per_generation_witness :
    (cacheW.popOne 2 = (some itemW, (cacheW.popOne 2).2) ∧
      ∃ top e,
        (top :: (cacheW.popOne 2).2.heap) <:+ cacheW.heap ∧
        itemW.token = top.token ∧ itemW.pool_address = top.pool_address ∧
        cacheW.map top.token = some e ∧ e.generation = top.generation ∧
        2 < e.expires_at ∧
        itemW.tx_hash = e.hash ∧ itemW.sim_ctx = e.sim_ctx ∧
        itemW.source = e.source ∧
        (cacheW.popOne 2).2.map top.token = none) ∧
    ((ArbCache.new 5).popOne 0 = (none, ((ArbCache.new 5).popOne 0).2) ∧
      ((ArbCache.new 5).popOne 0).2.heap = []) := by
  have hp : cacheW.popOne 2 = (some itemW, (cacheW.popOne 2).2) := by
    have h1 : (cacheW.popOne 2).1 = some itemW := by decide
    rw [← h1]
  have hq : (ArbCache.new 5).popOne 0 = (none, ((ArbCache.new 5).popOne 0).2) := by
    have h1 : ((ArbCache.new 5).popOne 0).1 = (none : Option ArbItem) := by decide
    rw [← h1]
  exact ⟨⟨hp, c1_pop_one_at_most_once_per_generation.1 cacheW 2 itemW _ hp⟩,
    ⟨hq, c1_pop_one_at_most_once_per_generation.2.1 (ArbCache.new 5) 0 _ hq⟩⟩

/-- C2: successive successful `pop_one` calls with no interleaved inserts
return candidates whose entries are in strictly increasing
`(expiry, generation)` lexicographic order — non-decreasing expiry with ties
broken by ascending generation.  Concretely, three live entries with distinct
expiries 6 < 7 < 8 inserted in any of the six possible orders are returned as
`"B"`, `"C"`, `"A"` (ascending expiry) by repeated `pop_one`. -/
theorem c2_pop_one_expiry_generation_order :
    (∀ (c : ArbCache) (times : List Nat), WF c →
       List.Chain' entLt (dsEntries (runCache c (times.map Op.pop)).2)) ∧
    (∀ p ∈ threeInsertOrders,
       ((runCache (ArbCache.new 5) (p ++ [Op.pop 4, Op.pop 4, Op.pop 4])).2.map
          (fun d => d.2.1.token)) = ["B", "C", "A"]) := by
  refine ⟨?_, by decide⟩
  intro c times hw
  exact (runCache_pops_ordered times c hw).2

/-- Witness for C2: the ordering theorem applied to the concrete well-formed
cache `cacheW` with two pops. -/
theorem c2_pop_one_expiry_generation_order_witness :
    WF cacheW ∧
    List.Chain' entLt (dsEntries (runCache cacheW ([2, 2].map Op.pop)).2) :=
  have hw : WF cacheW :=
    WF_insert 1 "T1" none 12 22 Source.public
      (WF_insert 0 "T1" none 11 21 Source.public (WF_new 5))
  ⟨hw, c2_pop_one_expiry_generation_order.1 cacheW [2, 2] hw⟩

/-- C3: `remove_expired` reports exactly the keys whose current-generation
entries have passed their expiry (removing them from the map), never a key
whose entry is still live; a not-yet-expired entry is left in both map and
heap; and after a key is reported, `pop_one` can never return that key again
(absent a new insert).  Scenario: ttl 5, insert at time 0, sweep at time 6
reports `["T1"]`, and a subsequent `pop_one` returns `None`. -/
theorem c3_remove_expired_exact :
    (∀ (c : ArbCache) (now : Nat), WF c →
       (∀ t, t ∈ (c.removeExpired now).1 ↔
          ∃ e, c.map t = some e ∧ e.expires_at ≤ now) ∧
       (∀ t ∈ (c.removeExpired now).1, (c.removeExpired now).2.map t = none) ∧
       (∀ t e, c.map t = some e → now < e.expires_at →
          (c.removeExpired now).2.map t = some e ∧
          ∃ r, r ∈ (c.removeExpired now).2.heap ∧ r.token = t ∧
            r.generation = e.generation ∧ r.expires_at = e.expires_at) ∧
       (∀ t ∈ (c.removeExpired now).1,
          ∀ (now₂ : Nat) (item : ArbItem) (c₃ : ArbCache),
            (c.removeExpired now).2.popOne now₂ = (some item, c₃) →
            item.token ≠ t)) ∧
    ((cacheX.removeExpired 6).1 = ["T1"] ∧
     ((cacheX.removeExpired 6).2.popOne 6).1 = none) := by
  refine ⟨?_, by decide, by decide⟩
  intro c now hw
  obtain ⟨hiff, hrep, hkeep⟩ := removeExpiredAux_spec now c.heap c.map hw
  have hw₂ : WF (c.removeExpired now).2 := WF_removeExpired now hw
  refine ⟨hiff, hrep, ?_, ?_⟩
  · intro t e he hlt
    refine ⟨hkeep t e he hlt, ?_⟩
    exact hw₂.2.2.2.2.2 t e (hkeep t e he hlt)
  · intro t ht now₂ item c₃ hp
    obtain ⟨-, -, top, e, hsfx, htok, hpool, hlook, -⟩ := popOne_some hp
    intro heq
    rw [htok] at heq
    rw [heq] at hlook
    have ht' : t ∈ (removeExpiredAux now c.map c.heap).1 := ht
    have hlook' : (removeExpiredAux now c.map c.heap).2.1 t = some e := hlook
    rw [hrep t ht'] at hlook'
    cases hlook'

/-- Witness for C3: the sweep characterization applied to the concrete
well-formed cache `cacheX` at time 6, evaluated at key `"T1"`. -/
theorem c3_remove_expired_exact_witness :
    WF cacheX ∧
    ("T1" ∈ (cacheX.removeExpired 6).1 ↔
      ∃ e, cacheX.map "T1" = some e ∧ e.expires_at ≤ 6) :=
  have hw : WF cacheX :=
    WF_insert 0 "T1" none 11 21 Source.public (WF_new 5)
  ⟨hw, (c3_remove_expired_exact.1 cacheX 6 hw).1 "T1"⟩

/-! ### The dispatcher's drain loop -/

theorem drain_len_le (now : Nat) :
    ∀ (fuel : Nat) (c : ArbCache) (recent : List String) (maxR : Nat),
      (drain now fuel c recent maxR).1.length ≤ fuel := by
  intro fuel
  induction fuel with
  | zero => intro c recent maxR; simp [drain]
  | succ n ih =>
    intro c recent maxR
    simp only [drain]
    rcases hp : c.popOne now with ⟨o, c₂⟩
    cases o with
    | some item =>
      dsimp only
      by_cases hmem : item.token ∈ recent
      · rw [if_pos hmem]
        exact le_trans (ih c₂ recent maxR) (Nat.le_succ n)
      · rw [if_neg hmem]
        simpa using Nat.succ_le_succ (ih c₂ _ maxR)
    | none => simp

/-- The drain step never adds to the cache: any map entry of the resulting
cache was already in the cache at entry (a dropped candidate is *not*
re-queued). -/
theorem drain_cache_sub (now : Nat) :
    ∀ (fuel : Nat) (c : ArbCache) (recent : List String) (maxR : Nat)
      (s : String) (e : ArbEntry),
      (drain now fuel c recent maxR).2.1.map s = some e → c.map s = some e := by
  intro fuel
  induction fuel with
  | zero => intro c recent maxR s e he; simpa [drain] using he
  | succ n ih =>
    intro c recent maxR s e he
    simp only [drain] at he
    rcases hp : c.popOne now with ⟨o, c₂⟩
    rw [hp] at he
    cases o with
    | some item =>
      obtain ⟨-, -, top, e₀, -, -, -, -, -, -, -, -, -, -, hsub⟩ := popOne_some hp
      simp only at he
      split at he
      · exact hsub s e (ih c₂ recent maxR s e he)
      · exact hsub s e (ih c₂ _ maxR s e he)
    | none =>
      obtain ⟨-, hsub, -, -⟩ := popOne_none hp
      simp only at he
      exact hsub s e he

/-- A token with no cache entry is never sent by the drain loop. -/
theorem drain_not_sent (now : Nat) :
    ∀ (fuel : Nat) (c : ArbCache) (recent : List String) (maxR : Nat)
      (t : String), c.map t = none →
      t ∉ ((drain now fuel c recent maxR).1.map ArbItem.token) := by
  intro fuel
  induction fuel with
  | zero => intro c recent maxR t ht; simp [drain]
  | succ n ih =>
    intro c recent maxR t ht
    simp only [drain]
    rcases hp : c.popOne now with ⟨o, c₂⟩
    cases o with
    | some item =>
      obtain ⟨-, -, top, e₀, -, htok, -, hlook, -, -, -, -, -, -, hsub⟩ :=
        popOne_some hp
      have hc₂ : c₂.map t = none := by
        rcases hx : c₂.map t with _ | e₂
        · rfl
        · rw [hsub t e₂ hx] at ht
          cases ht
      simp only
      split
      · exact ih c₂ recent maxR t hc₂
      · simp only [List.map_cons, List.mem_cons]
        rintro (rfl | hmem)
        · rw [htok, hlook] at ht
          cases ht
        · exact ih c₂ _ maxR t hc₂ hmem
    | none => simp

/-- Within one drain call, each token is sent at most once. -/
theorem drain_sent_nodup (now : Nat) :
    ∀ (fuel : Nat) (c : ArbCache) (recent : List String) (maxR : Nat),
      ((drain now fuel c recent maxR).1.map ArbItem.token).Nodup := by
  intro fuel
  induction fuel with
  | zero => intro c recent maxR; simp [drain]
  | succ n ih =>
    intro c recent maxR
    simp only [drain]
    rcases hp : c.popOne now with ⟨o, c₂⟩
    cases o with
    | some item =>
      obtain ⟨-, -, top, e₀, -, htok, -, -, -, -, -, -, -, hnone, -⟩ :=
        popOne_some hp
      simp only
      split
      · exact ih c₂ recent maxR
      · simp only [List.map_cons]
        refine List.nodup_cons.2 ⟨?_, ih c₂ _ maxR⟩
        exact drain_not_sent now n c₂ _ maxR item.token (htok ▸ hnone)
    | none => simp

/-- The drain loop keeps the window duplicate-free. -/
theorem drain_window_nodup (now : Nat) :
    ∀ (fuel : Nat) (c : ArbCache) (recent : List String) (maxR : Nat),
      recent.Nodup → (drain now fuel c recent maxR).2.2.Nodup := by
  intro fuel
  induction fuel with
  | zero => intro c recent maxR h; simpa [drain] using h
  | succ n ih =>
    intro c recent maxR h
    simp only [drain]
    rcases hp : c.popOne now with ⟨o, c₂⟩
    cases o with
    | some item =>
      simp only
      split
      · exact ih c₂ recent maxR h
      · rename_i hmem
        have h₁ : (recent ++ [item.token]).Nodup := by
          simp [List.nodup_append, h, hmem]
        split
        · exact ih c₂ _ maxR (h₁.sublist (List.tail_sublist _))
        · exact ih c₂ _ maxR h₁
    | none => simpa using h

/-- While the window cannot yet have evicted anything (its size plus the number
of sends stays within capacity), a key in the window is never sent. -/
theorem drain_no_evict_not_sent (now : Nat) :
    ∀ (fuel : Nat) (c : ArbCache) (recent : List String) (maxR : Nat),
      recent.length + (drain now fuel c recent maxR).1.length ≤ maxR →
      ∀ t ∈ recent, t ∉ ((drain now fuel c recent maxR).1.map ArbItem.token) := by
  intro fuel
  induction fuel with
  | zero => intro c recent maxR hlen t ht; simp [drain]
  | succ n ih =>
    intro c recent maxR hlen t ht
    simp only [drain] at hlen ⊢
    rcases hp : c.popOne now with ⟨o, c₂⟩
    rw [hp] at hlen
    cases o with
    | some item =>
      simp only at hlen ⊢
      by_cases hmem : item.token ∈ recent
      · rw [if_pos hmem] at hlen ⊢
        exact ih c₂ recent maxR hlen t ht
      · rw [if_neg hmem] at hlen ⊢
        have hle1 : recent.length + 1 ≤ maxR := by
          simp only [List.length_cons] at hlen
          omega
        have hnoev : ¬ maxR < (recent ++ [item.token]).length := by
          simp only [List.length_append, List.length_singleton]
          omega
        rw [if_neg hnoev] at hlen ⊢
        simp only [List.map_cons, List.mem_cons]
        rintro (rfl | hmem₂)
        · exact hmem ht
        · refine ih c₂ (recent ++ [item.token]) maxR ?_ t
            (List.mem_append_left _ ht) hmem₂
          simp only [List.length_cons] at hlen
          simp only [List.length_append, List.length_singleton]
          omega
    | none => simp

/-- Strict FIFO: after a drain, the window is exactly the suffix that fits the
capacity of the old window extended by the sent tokens in send order. -/
theorem drain_window_fifo (now : Nat) :
    ∀ (fuel : Nat) (c : ArbCache) (recent : List String) (maxR : Nat),
      recent.length ≤ maxR →
      (drain now fuel c recent maxR).2.2 =
        (recent ++ (drain now fuel c recent maxR).1.map ArbItem.token).drop
          (recent.length + (drain now fuel c recent maxR).1.length - maxR) := by
  intro fuel
  induction fuel with
  | zero =>
    intro c recent maxR hlen
    simp only [drain, List.map_nil, List.append_nil, List.length_nil]
    rw [Nat.sub_eq_zero_of_le (by omega)]
    simp
  | succ n ih =>
    intro c recent maxR hlen
    simp only [drain]
    rcases hp : c.popOne now with ⟨o, c₂⟩
    cases o with
    | none =>
      simp only [List.map_nil, List.append_nil, List.length_nil]
      rw [Nat.sub_eq_zero_of_le (by omega)]
      simp
    | some item =>
      simp only
      by_cases hmem : item.token ∈ recent
      · rw [if_pos hmem]
        exact ih c₂ recent maxR hlen
      · rw [if_neg hmem]
        by_cases hev : maxR < (recent ++ [item.token]).length
        · rw [if_pos hev]
          dsimp only
          simp only [List.map_cons, List.length_cons]
          have hevl : maxR < recent.length + 1 := by simpa using hev
          have hmax : recent.length = maxR := by omega
          rcases hd : recent ++ [item.token] with _ | ⟨a, l⟩
          · exact absurd hd (by simp)
          simp only [List.tail_cons]
          have hll : l.length = maxR := by
            have h := congrArg List.length hd
            simp at h
            omega
          have iheq := ih c₂ l maxR (le_of_eq hll)
          rw [iheq]
          have hsplit : recent ++ item.token ::
              ((drain now n c₂ l maxR).1.map ArbItem.token) =
              a :: (l ++ ((drain now n c₂ l maxR).1.map ArbItem.token)) := by
            rw [← List.cons_append, ← hd]
            simp
          rw [hsplit]
          have hidx2 : recent.length + ((drain now n c₂ l maxR).1.length + 1) -
              maxR = (drain now n c₂ l maxR).1.length + 1 := by omega
          rw [hidx2, List.drop_succ_cons]
          have hidx1 : l.length + (drain now n c₂ l maxR).1.length - maxR =
              (drain now n c₂ l maxR).1.length := by omega
          rw [hidx1]
        · rw [if_neg hev]
          dsimp only
          simp only [List.map_cons, List.length_cons]
          have hevl : recent.length + 1 ≤ maxR := by
            have h : (recent ++ [item.token]).length = recent.length + 1 := by simp
            omega
          have hlen₂ : (recent ++ [item.token]).length ≤ maxR := by
            simp only [List.length_append, List.length_singleton]
            omega
          have iheq := ih c₂ (recent ++ [item.token]) maxR hlen₂
          rw [iheq]
          have hsplit : recent ++ item.token ::
              ((drain now n c₂ (recent ++ [item.token]) maxR).1.map
                ArbItem.token) =
              (recent ++ [item.token]) ++
                ((drain now n c₂ (recent ++ [item.token]) maxR).1.map
                  ArbItem.token) := by
            simp
          rw [hsplit]
          congr 1
          simp only [List.length_append, List.length_singleton]
          omega

theorem removeTokens_subset :
    ∀ (ex l : List String) (t : String), t ∈ removeTokens l ex → t ∈ l := by
  intro ex
  induction ex with
  | nil => intro l t h; simpa [removeTokens] using h
  | cons a ex ih =>
    intro l t h
    exact List.mem_of_mem_erase (ih (l.erase a) t h)

theorem removeTokens_nodup :
    ∀ (ex l : List String), l.Nodup → (removeTokens l ex).Nodup := by
  intro ex
  induction ex with
  | nil => intro l h; simpa [removeTokens] using h
  | cons a ex ih => intro l h; exact ih (l.erase a) (h.erase a)

/-- A key reported by the sweep is removed from a duplicate-free window. -/
theorem removeTokens_not_mem :
    ∀ (ex l : List String), l.Nodup → ∀ t ∈ ex, t ∉ removeTokens l ex := by
  intro ex
  induction ex with
  | nil => intro l h t ht; cases ht
  | cons a ex ih =>
    intro l h t ht
    rcases List.mem_cons.1 ht with rfl | ht
    · intro hmem
      have h1 : t ∈ removeTokens (l.erase t) ex := hmem
      have h2 := removeTokens_subset ex (l.erase t) t h1
      exact absurd rfl (h.mem_erase_iff.1 h2).1
    · exact ih (l.erase a) (h.erase a) t ht

/-! ### Claim theorems for the dispatcher -/

/-- C4: in a single `process_event` call, if the work channel length `L` is at
or above the high-water mark 10 then nothing is popped or sent and the
backpressure warning is signaled; if `L < 10` then at most `10 - L` candidates
are sent and no warning is raised. -/
theorem c4_channel_high_water_mark :
    ∀ (now L : Nat) (c : ArbCache) (recent : List String) (maxR : Nat),
      (10 ≤ L → (processEventPost now L c recent maxR).1 = [] ∧
        (processEventPost now L c recent maxR).2.1 = true) ∧
      (L < 10 → (processEventPost now L c recent maxR).1.length ≤ 10 - L ∧
        (processEventPost now L c recent maxR).2.1 = false) := by
  intro now L c recent maxR
  constructor
  · intro hL
    have h10 : ¬ L < 10 := by omega
    constructor
    · simp [processEventPost, h10]
    · simp [processEventPost, h10]
  · intro hL
    constructor
    · simpa [processEventPost, hL] using drain_len_le now (10 - L) c recent maxR
    · simp [processEventPost, hL]

/-- Witness for C4: with channel length 7 at most `10 - 7 = 3` candidates are
sent (and no warning); with channel length 10 nothing is sent and the warning
is raised. -/
theorem c4_channel_high_water_mark_witness :
    (7 < 10 ∧ (processEventPost 2 7 cacheW [] 5).1.length ≤ 10 - 7 ∧
      (processEventPost 2 7 cacheW [] 5).2.1 = false) ∧
    (10 ≤ 10 ∧ (processEventPost 2 10 cacheW [] 5).1 = [] ∧
      (processEventPost 2 10 cacheW [] 5).2.1 = true) :=
  ⟨⟨by decide, (c4_channel_high_water_mark 2 7 cacheW [] 5).2 (by decide)⟩,
   ⟨by decide, (c4_channel_high_water_mark 2 10 cacheW [] 5).1 (by decide)⟩⟩

/-- C5: the dispatch window (`recent_arbs`).  (i) While the window has not
evicted anything (its size plus the number of sends stays within
`max_recent_arbs`), a key in the window is never sent.  (ii) Each key is sent
at most once per call.  (iii) The window evolves by strict FIFO: after the
drain it is exactly the capacity-sized suffix of the old window extended by the
sent keys, and in particular never holds more than `max_recent_arbs` keys.
(iv) A dropped candidate is *not* re-queued — the drain only shrinks the
cache.  (v) A key whose cache entry expires (reported by `remove_expired`) is
removed from the window by `process_event`, in both the drained and the
backpressure branch. -/
theorem c5_dispatch_window_dedup :
    ∀ (now fuel : Nat) (c : ArbCache) (recent : List String) (maxR : Nat),
      (recent.length + (drain now fuel c recent maxR).1.length ≤ maxR →
        ∀ t ∈ recent,
          t ∉ ((drain now fuel c recent maxR).1.map ArbItem.token)) ∧
      ((drain now fuel c recent maxR).1.map ArbItem.token).Nodup ∧
      (recent.length ≤ maxR →
        (drain now fuel c recent maxR).2.2 =
          (recent ++ (drain now fuel c recent maxR).1.map ArbItem.token).drop
            (recent.length + (drain now fuel c recent maxR).1.length - maxR) ∧
        (drain now fuel c recent maxR).2.2.length ≤ maxR) ∧
      (∀ s e, (drain now fuel c recent maxR).2.1.map s = some e →
        c.map s = some e) ∧
      (∀ L : Nat, recent.Nodup → L < 10 →
        ∀ t ∈ (((drain now (10 - L) c recent maxR).2.1).removeExpired now).1,
          t ∉ (processEventPost now L c recent maxR).2.2.2) ∧
      (∀ L : Nat, recent.Nodup → 10 ≤ L →
        ∀ t ∈ (c.removeExpired now).1,
          t ∉ (processEventPost now L c recent maxR).2.2.2) := by
  intro now fuel c recent maxR
  refine ⟨drain_no_evict_not_sent now fuel c recent maxR,
    drain_sent_nodup now fuel c recent maxR, ?_,
    drain_cache_sub now fuel c recent maxR, ?_, ?_⟩
  · intro hlen
    have hfifo := drain_window_fifo now fuel c recent maxR hlen
    refine ⟨hfifo, ?_⟩
    rw [hfifo, List.length_drop]
    simp only [List.length_append, List.length_map]
    omega
  · intro L hnd hL t ht
    simp only [processEventPost, if_pos hL]
    exact removeTokens_not_mem _ _
      (drain_window_nodup now (10 - L) c recent maxR hnd) t ht
  · intro L hnd hL t ht
    have h10 : ¬ L < 10 := by omega
    simp only [processEventPost, if_neg h10]
    exact removeTokens_not_mem _ _ hnd t ht

/-- Witness for C5: on the concrete cache `cacheW`, a window already holding
`"Z"` (no eviction possible) never re-sends `"Z"`, and the FIFO/capacity
characterization holds for the empty window. -/
theorem c5_dispatch_window_dedup_witness :
    ((["Z"] : List String).length + (drain 2 3 cacheW ["Z"] 5).1.length ≤ 5 ∧
      ∀ t ∈ (["Z"] : List String),
        t ∉ ((drain 2 3 cacheW ["Z"] 5).1.map ArbItem.token)) ∧
    ((([] : List String)).length ≤ 5 ∧
      ((drain 2 3 cacheW [] 5).2.2 =
        (([] : List String) ++ (drain 2 3 cacheW [] 5).1.map ArbItem.token).drop
          (([] : List String).length + (drain 2 3 cacheW [] 5).1.length - 5) ∧
       (drain 2 3 cacheW [] 5).2.2.length ≤ 5)) :=
  ⟨⟨by decide, (c5_dispatch_window_dedup 2 3 cacheW ["Z"] 5).1 (by decide)⟩,
   ⟨by decide, (c5_dispatch_window_dedup 2 3 cacheW [] 5).2.2.1 (by decide)⟩⟩

/-! ### Best-route selection lemmas -/

theorem selectStep_zero {b : Nat × TradeResult} {p : Nat × Option TradeResult}
    (hb : b.2.amount_out = 0) (hp : ∀ r, p.2 = some r → r.amount_out = 0) :
    (selectStep b p).2.amount_out = 0 := by
  unfold selectStep
  split
  · rename_i r hx
    split
    · exact hp r hx
    · exact hb
  · exact hb

theorem selectBest_go_zero :
    ∀ (l : List (Nat × Option TradeResult)) (b : Nat × TradeResult),
      (∀ i r, (i, some r) ∈ l → r.amount_out = 0) → b.2.amount_out = 0 →
      (l.foldl selectStep b).2.amount_out = 0 := by
  intro l
  induction l with
  | nil => intro b h hb; exact hb
  | cons p rest ih =>
    intro b h hb
    simp only [List.foldl_cons]
    refine ih (selectStep b p) (fun i r hir => h i r (List.mem_cons_of_mem _ hir)) ?_
    refine selectStep_zero hb fun r hr => ?_
    have : (p.1, some r) ∈ p :: rest := by
      rw [show ((p.1, some r) : Nat × Option TradeResult) = p by
        rw [← hr]]
      exact List.mem_cons_self _ _
    exact h p.1 r this

theorem selectBest_go_ignores_failures :
    ∀ (l : List (Nat × Option TradeResult)) (b : Nat × TradeResult),
      l.foldl selectStep b = (l.filter (fun p => p.2.isSome)).foldl selectStep b := by
  intro l
  induction l with
  | nil => intro b; rfl
  | cons p rest ih =>
    intro b
    rcases hx : p.2 with _ | r
    · have hs : (selectStep b p) = b := by unfold selectStep; rw [hx]
      have hf : (p :: rest).filter (fun p => p.2.isSome) =
          rest.filter (fun p => p.2.isSome) := by
        simp [List.filter_cons, hx]
      simp only [List.foldl_cons, hs, hf]
      exact ih b
    · have hf : (p :: rest).filter (fun p => p.2.isSome) =
          p :: rest.filter (fun p => p.2.isSome) := by
        simp [List.filter_cons, hx]
      simp only [List.foldl_cons, hf]
      exact ih (selectStep b p)

/-- Every completed task of a valid completion is a spawned task: its index
points at a non-empty path and its result is that path's quote. -/
theorem validCompletion_mem {paths : List Path} {q : Nat → Option TradeResult}
    {completed : List (Nat × Option TradeResult)}
    (hv : ValidCompletion paths q completed) {i : Nat} {o : Option TradeResult}
    (hm : (i, o) ∈ completed) :
    o = q i ∧ ∃ p, paths[i]? = some p ∧ p.isEmpty = false := by
  have hm' : (i, o) ∈ spawnedQuotes paths q := hv.mem_iff.1 hm
  unfold spawnedQuotes at hm'
  obtain ⟨⟨j, pth⟩, hjp, hij⟩ := List.mem_map.1 hm'
  obtain ⟨hmem, hne⟩ := List.mem_filter.1 hjp
  obtain ⟨hj, ho⟩ := Prod.mk.injEq _ _ _ _ ▸ hij
  subst hj
  refine ⟨ho.symm, pth, ?_, by simpa using hne⟩
  exact (List.mk_mem_enum_iff_getElem?.1 hmem)

/-- C6: `find_best_path_exact_in` quotes one task per non-empty path (the
spawned set), ignores failed quotes, selects the greatest completed quote, and
returns `Ok` only when the selected quote's output is strictly positive — and
an explicit "zero amount_out" error (never a zero-value result) when all
quotes failed, all outputs were zero, or no non-empty path exists. -/
theorem c6_no_viable_route_explicit_error :
    (∀ completed, selectBest completed =
      selectBest (completed.filter (fun p => p.2.isSome))) ∧
    (∀ (paths : List Path) (amount_in : Nat) (completed : List (Nat × Option TradeResult))
       (res : Path × Nat × TradeResult),
       findBestPathExactIn paths amount_in completed = Except.ok res →
       0 < res.2.2.amount_out) ∧
    (∀ (paths : List Path) (amount_in : Nat) (completed : List (Nat × Option TradeResult)),
       (∀ i r, (i, some r) ∈ completed → r.amount_out = 0) →
       findBestPathExactIn paths amount_in completed =
         Except.error "zero amount_out") ∧
    (∀ (paths : List Path) (amount_in : Nat) (q : Nat → Option TradeResult)
       (completed : List (Nat × Option TradeResult)),
       ValidCompletion paths q completed →
       ((∀ p ∈ paths, p.isEmpty = true) ∨ (∀ i, q i = none)) →
       findBestPathExactIn paths amount_in completed =
         Except.error "zero amount_out") := by
  refine ⟨fun completed =>
    selectBest_go_ignores_failures completed (0, TradeResult.dflt), ?_, ?_, ?_⟩
  · intro paths amount_in completed res hok
    unfold findBestPathExactIn at hok
    simp only [] at hok
    split at hok
    · rename_i hpos
      injection hok with hok
      subst hok
      exact hpos
    · cases hok
  · intro paths amount_in completed hzero
    unfold findBestPathExactIn
    have h0 : (selectBest completed).2.amount_out = 0 :=
      selectBest_go_zero completed (0, TradeResult.dflt) hzero rfl
    rw [if_neg (by omega)]
  · intro paths amount_in q completed hv hcase
    unfold findBestPathExactIn
    have h0 : (selectBest completed).2.amount_out = 0 := by
      refine selectBest_go_zero completed (0, TradeResult.dflt) ?_ rfl
      intro i r hir
      obtain ⟨ho, p, hp, hne⟩ := validCompletion_mem hv hir
      rcases hcase with hall | hq
      · have hpm : p ∈ paths := by
          have := List.getElem?_mem hp
          exact this
        rw [hall p hpm] at hne
        cases hne
      · rw [hq i] at ho
        cases ho
    rw [if_neg (by omega)]

/-- Witness for C6: a single profitable route yields `Ok` with positive
output; with the only quote reporting zero output the call fails with the
explicit "zero amount_out" error. -/
theorem c6_no_viable_route_explicit_error_witness :
    (findBestPathExactIn [pathA] 100
        [(0, some { amount_out := 12, gas_cost := 0, cache_misses := 0 })] =
      Except.ok (pathA, 100,
        { amount_out := 12, gas_cost := 0, cache_misses := 0 }) ∧
     0 < ((pathA, 100,
        ({ amount_out := 12, gas_cost := 0, cache_misses := 0 } : TradeResult)) :
          Path × Nat × TradeResult).2.2.amount_out) ∧
    ((∀ i r, ((i, some r) : Nat × Option TradeResult) ∈
        ([(0, some TradeResult.dflt)] : List (Nat × Option TradeResult)) →
        r.amount_out = 0) ∧
     findBestPathExactIn [pathA] 100 [(0, some TradeResult.dflt)] =
       Except.error "zero amount_out") := by
  have hz : ∀ i r, ((i, some r) : Nat × Option TradeResult) ∈
      ([(0, some TradeResult.dflt)] : List (Nat × Option TradeResult)) →
      r.amount_out = 0 := by
    intro i r h
    rcases List.mem_singleton.1 h with h
    obtain ⟨-, hr⟩ := Prod.mk.injEq _ _ _ _ ▸ h
    injection hr with hr
    rw [hr]
    rfl
  have hok : findBestPathExactIn [pathA] 100
      [(0, some { amount_out := 12, gas_cost := 0, cache_misses := 0 })] =
      Except.ok (pathA, 100,
        { amount_out := 12, gas_cost := 0, cache_misses := 0 }) := rfl
  exact ⟨⟨hok, c6_no_viable_route_explicit_error.2.1 [pathA] 100
      [(0, some { amount_out := 12, gas_cost := 0, cache_misses := 0 })] _ hok⟩,
    hz, c6_no_viable_route_explicit_error.2.2.1 [pathA] 100
      [(0, some TradeResult.dflt)] hz⟩

theorem selectStep_none (b : Nat × TradeResult) (j : Nat) :
    selectStep b (j, none) = b := rfl

theorem selectStep_some (b : Nat × TradeResult) (j : Nat) (r : TradeResult) :
    selectStep b (j, some r) = if b.2.net < r.net then (j, r) else b := rfl

/-- If one completed task `(i, M)` strictly dominates every other completed
quote (and beats the initial default), the selection loop ends at `(i, M)`
regardless of completion order. -/
theorem selectBest_go_unique :
    ∀ (l : List (Nat × Option TradeResult)) (b : Nat × TradeResult)
      (i : Nat) (M : TradeResult),
      (∀ j r, (j, some r) ∈ l → (j, r) ≠ (i, M) → r.net < M.net) →
      (((i, some M) ∈ l ∧ b.2.net < M.net) ∨ b = (i, M)) →
      l.foldl selectStep b = (i, M) := by
  intro l
  induction l with
  | nil =>
    intro b i M hall hdisj
    rcases hdisj with ⟨hm, -⟩ | rfl
    · cases hm
    · rfl
  | cons p rest ih =>
    intro b i M hall hdisj
    simp only [List.foldl_cons]
    have hall' : ∀ j r, (j, some r) ∈ rest → (j, r) ≠ (i, M) → r.net < M.net :=
      fun j r hm => hall j r (List.mem_cons_of_mem _ hm)
    rcases hdisj with ⟨hm, hb⟩ | rfl
    · rcases List.mem_cons.1 hm with hp | hm'
      · subst hp
        rw [selectStep_some, if_pos hb]
        exact ih (i, M) i M hall' (Or.inr rfl)
      · rcases p with ⟨j, o⟩
        cases o with
        | none =>
          rw [selectStep_none]
          exact ih b i M hall' (Or.inl ⟨hm', hb⟩)
        | some r =>
          rw [selectStep_some]
          by_cases hpr : (j, r) = (i, M)
          · obtain ⟨hj, hr⟩ := Prod.mk.injEq _ _ _ _ ▸ hpr
            subst hj
            subst hr
            rw [if_pos hb]
            exact ih (j, r) j r hall' (Or.inr rfl)
          · have hr : r.net < M.net := hall j r (List.mem_cons_self _ _) hpr
            by_cases hcond : b.2.net < r.net
            · rw [if_pos hcond]
              exact ih (j, r) i M hall' (Or.inl ⟨hm', hr⟩)
            · rw [if_neg hcond]
              exact ih b i M hall' (Or.inl ⟨hm', hb⟩)
    · rcases p with ⟨j, o⟩
      cases o with
      | none =>
        rw [selectStep_none]
        exact ih (i, M) i M hall' (Or.inr rfl)
      | some r =>
        rw [selectStep_some]
        by_cases hpr : (j, r) = (i, M)
        · obtain ⟨hj, hr⟩ := Prod.mk.injEq _ _ _ _ ▸ hpr
          subst hj
          subst hr
          rw [if_neg (lt_irrefl _)]
          exact ih (j, r) j r hall' (Or.inr rfl)
        · have hr : r.net < M.net := hall j r (List.mem_cons_self _ _) hpr
          rw [if_neg (not_lt.2 (le_of_lt hr))]
          exact ih (i, M) i M hall' (Or.inr rfl)

/-- C7 counterexample: the claim fails as stated.  With two non-empty routes
`pathA ≠ pathB` both quoted identically, the two admissible completion orders
`tieCompleted₁` and `tieCompleted₂` make `find_best_path_exact_in` return the
two *different* routes: the tie is broken by whichever task completed first,
not by a stable index. -/
theorem c7_counterexample_tie_broken_by_completion_order :
    ValidCompletion [pathA, pathB] qTie tieCompleted₁ ∧
    ValidCompletion [pathA, pathB] qTie tieCompleted₂ ∧
    (findBestPathExactIn [pathA, pathB] 100 tieCompleted₁).toOption.map
      (fun r => r.1) = some pathA ∧
    (findBestPathExactIn [pathA, pathB] 100 tieCompleted₂).toOption.map
      (fun r => r.1) = some pathB ∧
    pathA ≠ pathB := by
  refine ⟨?_, ?_, by decide, by decide, by decide⟩
  · unfold ValidCompletion
    decide
  · unfold ValidCompletion
    decide

/-- C7 (amended): the selected route is deterministic given identical per-route
quotes whenever exactly one route attains the greatest quote (and that quote
beats the all-zero default): any two completion orders of the same spawned
tasks yield the same result.  With several routes tied for the greatest quote
the first-completed one wins (see the counterexample), so the claim holds only
under a unique maximum. -/
theorem c7_unique_best_route_deterministic :
    ∀ (paths : List Path) (amount_in : Nat) (q : Nat → Option TradeResult)
      (completed₁ completed₂ : List (Nat × Option TradeResult)) (i : Nat)
      (M : TradeResult),
      ValidCompletion paths q completed₁ →
      ValidCompletion paths q completed₂ →
      (i, some M) ∈ completed₁ →
      (∀ j r, (j, some r) ∈ completed₁ → (j, r) ≠ (i, M) → r.net < M.net) →
      TradeResult.dflt.net < M.net →
      findBestPathExactIn paths amount_in completed₁ =
        findBestPathExactIn paths amount_in completed₂ := by
  intro paths amount_in q c₁ c₂ i M hv₁ hv₂ hm hall hM
  have hperm : c₁.Perm c₂ := hv₁.trans hv₂.symm
  have hs₁ : selectBest c₁ = (i, M) :=
    selectBest_go_unique c₁ (0, TradeResult.dflt) i M hall (Or.inl ⟨hm, hM⟩)
  have hs₂ : selectBest c₂ = (i, M) :=
    selectBest_go_unique c₂ (0, TradeResult.dflt) i M
      (fun j r hjr => hall j r (hperm.mem_iff.2 hjr))
      (Or.inl ⟨hperm.mem_iff.1 hm, hM⟩)
  unfold findBestPathExactIn
  rw [hs₁, hs₂]

/-- Witness for C7 (amended): with quotes 5 and 3 the two completion orders
return the same route. -/
theorem c7_unique_best_route_deterministic_witness :
    ValidCompletion [pathA, pathB] qUnique uniqCompleted₁ ∧
    ValidCompletion [pathA, pathB] qUnique uniqCompleted₂ ∧
    ((0 : Nat), some q5) ∈ uniqCompleted₁ ∧
    (∀ j r, ((j, some r) : Nat × Option TradeResult) ∈ uniqCompleted₁ →
      (j, r) ≠ (0, q5) → r.net < q5.net) ∧
    TradeResult.dflt.net < q5.net ∧
    findBestPathExactIn [pathA, pathB] 100 uniqCompleted₁ =
      findBestPathExactIn [pathA, pathB] 100 uniqCompleted₂ := by
  have hv₁ : ValidCompletion [pathA, pathB] qUnique uniqCompleted₁ := by
    unfold ValidCompletion
    decide
  have hv₂ : ValidCompletion [pathA, pathB] qUnique uniqCompleted₂ := by
    unfold ValidCompletion
    decide
  have hm : ((0 : Nat), some q5) ∈ uniqCompleted₁ := by decide
  have hall : ∀ j r, ((j, some r) : Nat × Option TradeResult) ∈ uniqCompleted₁ →
      (j, r) ≠ (0, q5) → r.net < q5.net := by
    intro j r h hne
    rcases List.mem_cons.1 h with h | h
    · obtain ⟨hj, hr⟩ := Prod.mk.injEq _ _ _ _ ▸ h
      injection hr with hr
      exact absurd (by rw [hj, hr]) hne
    · rcases List.mem_singleton.1 h with h
      obtain ⟨hj, hr⟩ := Prod.mk.injEq _ _ _ _ ▸ h
      injection hr with hr
      rw [hr]
      decide
  have hM : TradeResult.dflt.net < q5.net := by decide
  exact ⟨hv₁, hv₂, hm, hall, hM,
    c7_unique_best_route_deterministic [pathA, pathB] 100 qUnique
      uniqCompleted₁ uniqCompleted₂ 0 q5 hv₁ hv₂ hm hall hM⟩

/-! ### Route search lemmas -/

theorem mem_insertByLiq {x d : Dex} :
    ∀ {l : List Dex}, x ∈ insertByLiq d l → x = d ∨ x ∈ l := by
  intro l
  induction l with
  | nil => intro h; simpa [insertByLiq] using h
  | cons y ys ih =>
    intro h
    simp only [insertByLiq] at h
    split at h
    · rcases List.mem_cons.1 h with rfl | h
      · exact Or.inl rfl
      · exact Or.inr h
    · rcases List.mem_cons.1 h with rfl | h
      · exact Or.inr (List.mem_cons_self _ _)
      · rcases ih h with h | h
        · exact Or.inl h
        · exact Or.inr (List.mem_cons_of_mem _ h)

theorem mem_sortByLiqDesc {x : Dex} :
    ∀ {l : List Dex}, x ∈ sortByLiqDesc l → x ∈ l := by
  intro l
  induction l with
  | nil => intro h; simpa [sortByLiqDesc] using h
  | cons y ys ih =>
    intro h
    simp only [sortByLiqDesc] at h
    rcases mem_insertByLiq h with rfl | h
    · exact List.mem_cons_self _ _
    · exact List.mem_cons_of_mem _ (ih h)

/-- Every pool kept for a token by one BFS phase came from the index query for
that token, so (under the index's contract) it starts at that token. -/
theorem bfsPhase_hopsWF {searcher : DexSearcher} {pegged : List String}
    {isLast : Bool} (hc : SearcherContract searcher) :
    ∀ (stack : List String) (st : PhaseSt), HopsWF st.all_hops →
      HopsWF (bfsPhase searcher pegged isLast stack st).all_hops := by
  intro stack
  induction stack with
  | nil => intro st h; simpa [bfsPhase] using h
  | cons t stack ih =>
    intro st h
    simp only [bfsPhase]
    split
    · exact ih st h
    · split
      · exact ih _ h
      · rename_i dexes0 hs
        have hins : ∀ (ds : List Dex), (∀ d ∈ ds, d ∈ dexes0) →
            HopsWF ((t, ds) :: st.all_hops) := by
          intro ds hsub t' ds' hlook d hd
          rw [List.lookup_cons] at hlook
          by_cases ht : t' = t
          · rw [show (t' == t) = true by simp [ht]] at hlook
            have hlook' : some ds = some ds' := hlook
            injection hlook' with hlook'
            subst hlook'
            rw [ht]
            exact hc t _ dexes0 hs d (hsub d hd)
          · rw [show (t' == t) = false by simp [ht]] at hlook
            have hlook' : List.lookup t' st.all_hops = some ds' := hlook
            exact h t' ds' hlook' d hd
        split
        · split
          · exact ih _ h
          · exact ih _ (hins _ (fun d hd => List.mem_of_mem_filter
              (List.mem_of_mem_filter (mem_sortByLiqDesc (List.take_subset _ _ hd)))))
        · split
          · exact ih _ h
          · exact ih _ (hins _ (fun d hd => List.mem_of_mem_filter hd))

/-- The whole BFS produces a well-formed hop map. -/
theorem bfsRounds_hopsWF {searcher : DexSearcher} {pegged : List String}
    (hc : SearcherContract searcher) :
    ∀ (r : Nat) (stack : List String) (st : PhaseSt), HopsWF st.all_hops →
      HopsWF (bfsRounds searcher pegged r stack st) := by
  intro r
  induction r with
  | zero => intro stack st h; simpa [bfsRounds] using h
  | succ n ih =>
    intro stack st h
    simp only [bfsRounds]
    split
    · exact bfsPhase_hopsWF hc stack _ h
    · exact ih _ _ (bfsPhase_hopsWF hc stack _ h)

theorem endsAtNative_cons {t : String} {d : Dex} {rt : List Dex}
    (h : endsAtNative d.coin_out rt) : endsAtNative t (d :: rt) := by
  cases rt with
  | nil => simpa [endsAtNative] using h
  | cons x xs =>
    unfold endsAtNative at h ⊢
    rw [List.getLast?_cons_cons]
    exact h

/-- Every route the `dfs` enumerates from a well-formed hop map is bounded by
its fuel, chains hop to hop, and ends at the native asset. -/
theorem dfs_spec {hops : List (String × List Dex)} (hWF : HopsWF hops) :
    ∀ (fuel : Nat) (t : String) (r : List Dex), r ∈ dfs hops fuel t →
      r.length ≤ fuel ∧ chainedFrom t r ∧ endsAtNative t r := by
  intro fuel
  induction fuel with
  | zero =>
    intro t r hr
    simp only [dfs] at hr
    split at hr
    · rename_i hnat
      rcases List.mem_singleton.1 hr with rfl
      exact ⟨by simp, trivial, by simpa [endsAtNative] using hnat⟩
    · cases hr
  | succ f ih =>
    intro t r hr
    simp only [dfs] at hr
    split at hr
    · rename_i hnat
      rcases List.mem_singleton.1 hr with rfl
      exact ⟨by simp, trivial, by simpa [endsAtNative] using hnat⟩
    · split at hr
      · cases hr
      · rename_i dexes hlook
        obtain ⟨d, hd, hr'⟩ := List.mem_flatMap.1 hr
        obtain ⟨rt, hrt, hcons⟩ := List.mem_map.1 hr'
        subst hcons
        obtain ⟨hlen, hch, hend⟩ := ih d.coin_out rt hrt
        refine ⟨by simpa using Nat.succ_le_succ hlen, ?_, endsAtNative_cons hend⟩
        exact ⟨hWF t dexes hlook d hd, hch⟩

/-- Shared helper: the counterexample index satisfies the liquidity-index
contract (every returned pool starts at the queried token). -/
theorem cexSearcherContract : SearcherContract cexSearcher := by
  intro t tgt ds h d hd
  unfold cexSearcher at h
  split_ifs at h with h1 h2
  · injection h with h
    subst h
    rcases List.mem_singleton.1 hd with rfl
    rw [h1.1]
    rfl
  · injection h with h
    subst h
    rcases List.mem_singleton.1 hd with rfl
    rw [h2.1]
    rfl

/-- C8 counterexample: the claim's "no route uses the same pool twice" fails
on the code.  With a liquidity index (satisfying the index contract) in which
one multi-token pool 7 serves both the `"A"→"X"` and the `"X"→WAVAX` pair
— pool-reuse filtering only happens when a token has more than
`MAX_POOL_COUNT` candidate pools — `find_sell_paths` enumerates a route whose
two hops use the same pool. -/
theorem c8_counterexample_route_reuses_pool :
    SearcherContract cexSearcher ∧
    [dexAX, dexXW] ∈ findSellPaths cexSearcher [] "A" ∧
    dexAX.pool_address = dexXW.pool_address ∧
    ¬ (([dexAX, dexXW].map Dex.pool_address).Nodup) :=
  ⟨cexSearcherContract, by decide, by decide, by decide⟩

/-- C8 (amended): for every liquidity index satisfying the index contract
(returned pools start at the queried token) and every pegged list and start
token, `find_sell_paths` terminates (the model's BFS and `dfs` are total,
structurally recursive exactly on the source's loop bounds) and every
enumerated route has at most `MAX_HOP_COUNT = 2` hops, chains hop to hop from
the start token, and ends at the native/wrapped asset.  A route *may* use the
same pool twice (see the counterexample): used pools are avoided only when a
token has more than `MAX_POOL_COUNT` candidate pools. -/
theorem c8_route_bound_chaining_termination :
    ∀ (searcher : DexSearcher) (pegged : List String) (token_in : String),
      SearcherContract searcher →
      ∀ r ∈ findSellPaths searcher pegged token_in,
        r.length ≤ MAX_HOP_COUNT ∧ chainedFrom token_in r ∧
          endsAtNative token_in r := by
  intro searcher pegged token_in hc r hr
  unfold findSellPaths at hr
  split at hr
  · rename_i hnat
    rcases List.mem_singleton.1 hr with rfl
    exact ⟨by simp, trivial, by simpa [endsAtNative] using hnat⟩
  · exact dfs_spec (bfsRounds_hopsWF hc MAX_HOP_COUNT [token_in]
      { visited := [], visited_dexes := [], new_stack := [], all_hops := [] }
      (fun t ds h => by cases h)) MAX_HOP_COUNT token_in r hr

/-- Witness for C8: the bound/chaining theorem applied to the concrete
counterexample index and the concrete route it enumerates. -/
theorem c8_route_bound_chaining_termination_witness :
    SearcherContract cexSearcher ∧
    ([dexAX, dexXW] ∈ findSellPaths cexSearcher [] "A") ∧
    ([dexAX, dexXW] : List Dex).length ≤ MAX_HOP_COUNT ∧
    chainedFrom "A" [dexAX, dexXW] ∧ endsAtNative "A" [dexAX, dexXW] :=
  ⟨cexSearcherContract, by decide,
    c8_route_bound_chaining_termination cexSearcher [] "A" cexSearcherContract
      [dexAX, dexXW] (by decide)⟩

/-! ### Worker claim theorems -/

/-- The dry run succeeds exactly when the gas-refreshed transaction simulates
successfully with strictly positive profit, and then returns that refreshed
transaction. -/
theorem dryRun_ok_iff (sender : Nat)
    (simulate : TransactionRequest → Option SimResponse)
    (tx : TransactionRequest) (tx' : TransactionRequest) :
    dryRunTxRequest sender simulate tx = Except.ok tx' ↔
      tx' = updateGasEstimates sender tx ∧
      ∃ resp, simulate (updateGasEstimates sender tx) = some resp ∧
        resp.success = true ∧ 0 < resp.profit := by
  unfold dryRunTxRequest
  dsimp only
  constructor
  · intro h
    split at h
    · cases h
    · rename_i resp hs
      split at h
      · rename_i hsucc
        split at h
        · rename_i hprofit
          injection h with h
          exact ⟨h.symm, resp, hs, hsucc, hprofit⟩
        · cases h
      · cases h
  · rintro ⟨rfl, resp, hs, hsucc, hprofit⟩
    rw [hs]
    dsimp only
    rw [if_pos hsucc, if_pos hprofit]

/-- C9: the worker forwards actions to the action sink only for a
simulation-confirmed, strictly profitable opportunity.  `handle_arb_item`
always returns `Ok`; if anything is submitted, the dry run of the refreshed
draft transaction reported success and strictly positive profit, and the first
submitted action is the origin-classified transaction (a relay bid for
`MevRelay`, a public execution otherwise) followed by the notification
messages; nothing is submitted when there is no opportunity, when the
simulator fails, or when it reports failure or non-positive profit. -/
theorem c9_submit_only_simulation_confirmed_profit :
    ∀ (sender : Nat) (simulate : TransactionRequest → Option SimResponse)
      (tg_msgs : List Nat) (opportunity : Option ArbResultM) (tx_hash : Nat),
      (handleArbItem sender simulate tg_msgs opportunity tx_hash).2 =
        Except.ok () ∧
      ((handleArbItem sender simulate tg_msgs opportunity tx_hash).1 ≠ [] →
        ∃ arb_result resp,
          opportunity = some arb_result ∧
          simulate (updateGasEstimates sender arb_result.tx_data) = some resp ∧
          resp.success = true ∧ 0 < resp.profit ∧
          (handleArbItem sender simulate tg_msgs opportunity tx_hash).1 =
            (match arb_result.source with
             | Source.mevRelay _ bid_amount _ _ _ =>
               Action.mevRelaySubmitBid
                 (updateGasEstimates sender arb_result.tx_data) bid_amount tx_hash
             | _ => Action.executePublicTx
                 (updateGasEstimates sender arb_result.tx_data)) ::
              tg_msgs.map Action.notifyViaTelegram) ∧
      (opportunity = none →
        (handleArbItem sender simulate tg_msgs opportunity tx_hash).1 = []) ∧
      (∀ arb_result, opportunity = some arb_result →
        (∀ resp, simulate (updateGasEstimates sender arb_result.tx_data) =
            some resp → resp.success = false ∨ resp.profit = 0) →
        (handleArbItem sender simulate tg_msgs opportunity tx_hash).1 = []) := by
  intro sender simulate tg_msgs opportunity tx_hash
  cases opportunity with
  | none => exact ⟨rfl, fun h => absurd rfl h, fun _ => rfl, fun a ha => by cases ha⟩
  | some arb_result =>
    rcases hdr : dryRunTxRequest sender simulate arb_result.tx_data with e | tx'
    · refine ⟨?_, ?_, ?_, ?_⟩
      · simp [handleArbItem, hdr]
      · intro hne
        exact absurd (by simp [handleArbItem, hdr]) hne
      · intro h
        cases h
      · intro a ha hfail
        simp [handleArbItem, hdr]
    · obtain ⟨htx', resp, hresp, hsucc, hprofit⟩ := (dryRun_ok_iff _ _ _ _).1 hdr
      subst htx'
      refine ⟨?_, ?_, ?_, ?_⟩
      · simp [handleArbItem, hdr]
      · intro hne
        refine ⟨arb_result, resp, rfl, hresp, hsucc, hprofit, ?_⟩
        simp only [handleArbItem, hdr]
      · intro h
        cases h
      · intro a ha hfail
        injection ha with ha
        subst ha
        rcases hfail resp hresp with h | h
        · rw [hsucc] at h
          cases h
        · omega

/-- Witness for C9: a successful dry run on a concrete public-origin
opportunity submits the public-execution action followed by the notification;
the always-failing simulator submits nothing. -/
theorem c9_submit_only_simulation_confirmed_profit_witness :
    ((handleArbItem 1 simOK [9] (some { tx_data := txW, source := Source.public })
        3).1 ≠ [] ∧
      ∃ arb_result resp,
        (some { tx_data := txW, source := Source.public } : Option ArbResultM) =
          some arb_result ∧
        simOK (updateGasEstimates 1 arb_result.tx_data) = some resp ∧
        resp.success = true ∧ 0 < resp.profit ∧
        (handleArbItem 1 simOK [9]
            (some { tx_data := txW, source := Source.public }) 3).1 =
          (match arb_result.source with
           | Source.mevRelay _ bid_amount _ _ _ =>
             Action.mevRelaySubmitBid
               (updateGasEstimates 1 arb_result.tx_data) bid_amount 3
           | _ => Action.executePublicTx
               (updateGasEstimates 1 arb_result.tx_data)) ::
            [9].map Action.notifyViaTelegram) ∧
    ((∀ resp, (fun _ => some { success := false, profit := 0 } :
        TransactionRequest → Option SimResponse)
          (updateGasEstimates 1 txW) = some resp →
        resp.success = false ∨ resp.profit = 0) ∧
      (handleArbItem 1 (fun _ => some { success := false, profit := 0 }) [9]
          (some { tx_data := txW, source := Source.public }) 3).1 = []) := by
  have hfail : ∀ resp, (fun _ => some { success := false, profit := 0 } :
      TransactionRequest → Option SimResponse)
        (updateGasEstimates 1 txW) = some resp →
      resp.success = false ∨ resp.profit = 0 := by
    intro resp h
    injection h with h
    subst h
    exact Or.inl rfl
  refine ⟨⟨by decide, (c9_submit_only_simulation_confirmed_profit 1 simOK [9]
      (some { tx_data := txW, source := Source.public }) 3).2.1 (by decide)⟩,
    hfail, (c9_submit_only_simulation_confirmed_profit 1
      (fun _ => some { success := false, profit := 0 }) [9]
      (some { tx_data := txW, source := Source.public }) 3).2.2.2
      { tx_data := txW, source := Source.public } rfl hfail⟩

/-- C10 counterexample: the claim's "refreshes … from current network
conditions" fails on the code — `update_gas_estimates` consults nothing: with
the network's current gas price at 30 gwei, the refreshed transaction still
carries the hardcoded 25 gwei. -/
theorem c10_counterexample_gas_not_from_network :
    ¬ networkRefreshedGasPrice 30000000000 (updateGasEstimates 1 txW) := by
  intro h
  unfold networkRefreshedGasPrice updateGasEstimates at h
  simp at h

/-- C10 (amended): before dry-running, `update_gas_estimates` sets every draft
transaction's gas price to the fixed 25 gwei default and its gas limit to the
fixed 300000 default (and fills the sender), independent of network
conditions, and the dry run simulates exactly the so-refreshed transaction,
which is what a successful dry run returns. -/
theorem c10_gas_defaults_before_dry_run :
    ∀ (sender : Nat) (tx : TransactionRequest),
      (updateGasEstimates sender tx).gas_price = some 25000000000 ∧
      (updateGasEstimates sender tx).gas = some 300000 ∧
      (updateGasEstimates sender tx).fromAddr = some sender ∧
      (∀ (simulate : TransactionRequest → Option SimResponse)
         (tx' : TransactionRequest),
         dryRunTxRequest sender simulate tx = Except.ok tx' →
         tx' = updateGasEstimates sender tx) := by
  intro sender tx
  exact ⟨rfl, rfl, rfl, fun simulate tx' h => ((dryRun_ok_iff _ _ _ _).1 h).1⟩

/-- Witness for C10 (amended): on the concrete blank transaction with the
always-successful simulator, the dry run returns the transaction with the
default gas fields set. -/
theorem c10_gas_defaults_before_dry_run_witness :
    dryRunTxRequest 1 simOK txW = Except.ok (updateGasEstimates 1 txW) ∧
    (updateGasEstimates 1 txW).gas_price = some 25000000000 ∧
    (updateGasEstimates 1 txW).gas = some 300000 ∧
    (updateGasEstimates 1 txW).fromAddr = some 1 :=
  have h := c10_gas_defaults_before_dry_run 1 txW
  ⟨rfl, h.1, h.2.1, h.2.2.1⟩

end ArbBot
